import Mathlib

/-!
Verification of the query-executor pipeline of the `my-fake-sql` proxy.

Query text and all other strings from the Rust source are modelled as
`List Char` (called `Str` below), so that the character-level operations of
the source (`trim`, `lines`, `split`, `replace`, `starts_with`, ...) become
ordinary recursive functions amenable to induction.  Each Rust module is
embedded in its own namespace; definition names follow the source.  `Result`
values are modelled with `Except`; a Rust `panic!` or `.unwrap()` failure is
modelled as a distinguished error that aborts the surrounding call.
-/

set_option maxHeartbeats 1000000

abbrev Str := List Char

/-- Whitespace test used by `str::trim` (ASCII subset of Unicode
`White_Space`; non-ASCII whitespace does not occur in the modelled data). -/
def isWs (c : Char) : Bool :=
  c == ' ' || c == '\t' || c == '\n' || c == '\r' || c == '\x0b' || c == '\x0c'

/-- Model of `str::trim_start`. -/
def trimLeft (s : Str) : Str := s.dropWhile isWs

/-- Model of `str::trim_end`: strips the maximal whitespace suffix. -/
def trimRight : Str → Str
  | [] => []
  | c :: rest =>
    match trimRight rest with
    | [] => if isWs c then [] else [c]
    | r => c :: r

/-- Model of `str::trim`. -/
def trimStr (s : Str) : Str := trimRight (trimLeft s)

/-- Model of `BufRead::read_line`: the first component is the first line
including its terminating newline (or the whole input when it has no
newline); the second component is the remaining input. -/
def read_line : Str → Str × Str
  | [] => ([], [])
  | c :: rest =>
    if c == '\n' then ([c], rest)
    else
      let (l, r) := read_line rest
      (c :: l, r)

theorem read_line_snd_length_le (s : Str) : (read_line s).2.length ≤ s.length := by
  induction s with
  | nil => simp [read_line]
  | cons c rest ih =>
    simp only [read_line]
    by_cases h : c == '\n' <;> simp [h] <;> omega

theorem read_line_snd_length_lt (c : Char) (rest : Str) :
    (read_line (c :: rest)).2.length < (c :: rest).length := by
  simp only [read_line]
  by_cases h : c == '\n' <;> simp [h]
  · exact Nat.lt_succ_of_le (read_line_snd_length_le rest)

/-- The pieces of `split_inclusive('\n')`: each piece ends with a newline,
except possibly the last. -/
def splitInclusiveNl (s : Str) : List Str :=
  match s with
  | [] => []
  | c :: rest =>
    (read_line (c :: rest)).1 :: splitInclusiveNl (read_line (c :: rest)).2
termination_by s.length
decreasing_by
  exact read_line_snd_length_lt c rest

/-- Model of `strip_suffix(c)`: `some` of the list without its last element
when that element is `c`. -/
def stripSuffixChar (c : Char) : Str → Option Str
  | [] => none
  | [d] => if d == c then some [] else none
  | d :: e :: rest => (stripSuffixChar c (e :: rest)).map (d :: ·)

/-- The per-line map of `str::lines` / `BufRead::lines`: remove one trailing
newline, and when one was removed also one trailing carriage return. -/
def linesMap (piece : Str) : Str :=
  match stripSuffixChar '\n' piece with
  | none => piece
  | some p =>
    match stripSuffixChar '\r' p with
    | none => p
    | some q => q

/-- Model of `str::lines` (also `BufRead::lines` materialized). -/
def rustLines (s : Str) : List Str := (splitInclusiveNl s).map linesMap

/-- Model of `str::split(c)`: always returns at least one (possibly empty)
piece. -/
def splitOnChar (c : Char) : Str → List Str
  | [] => [[]]
  | d :: rest =>
    if d == c then [] :: splitOnChar c rest
    else
      match splitOnChar c rest with
      | [] => [[d]]
      | p :: ps => (d :: p) :: ps

/-- Model of `itertools::join` / slice `join` with a string separator. -/
def joinSep (sep : Str) : List Str → Str
  | [] => []
  | [x] => x
  | x :: y :: rest => x ++ sep ++ joinSep sep (y :: rest)

/-- Model of `str::to_lowercase` (character-wise; sufficient for ASCII SQL
keywords). -/
def toLowerStr (s : Str) : Str := s.map Char.toLower

/-- Model of `str::contains(pattern)` for a literal pattern. -/
def containsSeq : Str → Str → Bool
  | s, pat =>
    match s with
    | [] => pat.isPrefixOf ([] : Str)
    | _ :: rest => pat.isPrefixOf s || containsSeq rest pat

/-- MySQL wire column-type codes used by the source (`msql_srv::ColumnType`). -/
inductive ColumnType where
  | MYSQL_TYPE_DECIMAL
  | MYSQL_TYPE_TINY
  | MYSQL_TYPE_SHORT
  | MYSQL_TYPE_LONG
  | MYSQL_TYPE_FLOAT
  | MYSQL_TYPE_DOUBLE
  | MYSQL_TYPE_TIMESTAMP
  | MYSQL_TYPE_LONGLONG
  | MYSQL_TYPE_INT24
  | MYSQL_TYPE_DATE
  | MYSQL_TYPE_TIME
  | MYSQL_TYPE_DATETIME
  | MYSQL_TYPE_YEAR
  | MYSQL_TYPE_DATETIME2
  | MYSQL_TYPE_VAR_STRING
  | MYSQL_TYPE_STRING
  | MYSQL_TYPE_ENUM
  | MYSQL_TYPE_NEWDECIMAL
  | MYSQL_TYPE_BLOB
  | MYSQL_TYPE_MEDIUM_BLOB
  | MYSQL_TYPE_BIT
deriving DecidableEq

/-- Model of `msql_srv::Column`; `colflags` is always `ColumnFlags::empty()`
in the source and is omitted. -/
structure Column where
  table : Str
  column : Str
  coltype : ColumnType
deriving DecidableEq

/-- The literal table name used for reader columns. -/
def noneStr : Str := ['n', 'o', 'n', 'e']

/-- The literal row token denoting SQL NULL. -/
def nullStr : Str := ['N', 'U', 'L', 'L']

instance exceptDecEq {ε α : Type} [DecidableEq ε] [DecidableEq α] :
    DecidableEq (Except ε α) := fun x y =>
  match x, y with
  | .ok a, .ok b =>
    if h : a = b then .isTrue (by rw [h]) else .isFalse (by intro hh; cases hh; exact h rfl)
  | .ok _, .error _ => .isFalse (by intro hh; cases hh)
  | .error _, .ok _ => .isFalse (by intro hh; cases hh)
  | .error a, .error b =>
    if h : a = b then .isTrue (by rw [h]) else .isFalse (by intro hh; cases hh; exact h rfl)

namespace Reader

/-- Model of `query_executor::ColumnValue` (`src/query_executor/mod.rs`):
values read from the tab-separated log stream. -/
inductive ColumnValue where
  | RawValue (value : Str)
  | Null
deriving DecidableEq

/-- One row (`type Rows = Vec<ColumnValue>` in the source). -/
abbrev Rows := List ColumnValue

/-- Model of `ReaderQueryResult::get_columns`: the first line (as read by
`read_line`) split on tabs, fields trimmed, empty fields removed, each kept
field made a column with the untyped `MYSQL_TYPE_STRING` tag. -/
def get_columns (input : Str) : List Column :=
  let header := (read_line input).1
  (((splitOnChar '\t' header).map trimStr).filter (fun c => !c.isEmpty)).map
    (fun c => { table := noneStr, column := c, coltype := .MYSQL_TYPE_STRING })

/-- Model of `ReaderQueryResult::get_rows`: the remaining lines, empty lines
skipped, each line split on tabs, the literal `NULL` becoming `Null` and
every other field a `RawValue`.  (I/O errors of the underlying reader are
not modelled; the input is the full byte stream as text.) -/
def get_rows (input : Str) : List Rows :=
  let rest := (read_line input).2
  ((rustLines rest).filter (fun row => !row.isEmpty)).map
    (fun row =>
      (splitOnChar '\t' row).map
        (fun v => if v == nullStr then ColumnValue.Null else .RawValue v))

/-- Header fields as the specification claim words them: split on tab, each
field trimmed, and only empty TRAILING fields dropped. -/
def specHeaderTrailingOnly (input : Str) : List Str :=
  let fields := (splitOnChar '\t' (read_line input).1).map trimStr
  (fields.reverse.dropWhile List.isEmpty).reverse

/-- Header fields as the source actually computes them (amended wording):
split on tab, each field trimmed, and ALL empty fields dropped, wherever
they occur. -/
def specHeaderAllEmptyDropped (input : Str) : List Str :=
  ((splitOnChar '\t' (read_line input).1).map trimStr).filter
    (fun f => !f.isEmpty)

/-- Row decoding as the specification words it, written with `filterMap`:
skip empty lines, split the rest on tab, `NULL` maps to `Null`, everything
else to a string value. -/
def specRows (input : Str) : List Rows :=
  (rustLines (read_line input).2).filterMap
    (fun line =>
      if line.isEmpty then none
      else
        some ((splitOnChar '\t' line).map
          (fun v => if v == nullStr then ColumnValue.Null else .RawValue v)))

end Reader

namespace Accumulator

/-- The keyword tested by `QueryAccumulator::query`. -/
def setKw : Str := ['s', 'e', 't']

/-- The separator joined between accumulated statements. -/
def sepStr : Str := [';', '\n']

/-- Model of `ritelinked::LinkedHashSet::insert`: an element already present
keeps its original position; a new element is appended at the back. -/
def lhsInsert (acc : List Str) (q : Str) : List Str :=
  if acc.contains q then acc else acc ++ [q]

/-- What `QueryAccumulator::query` does with the inner executor. -/
inductive AccAction where
  | returnNone
  | forward (sql : Str)
deriving DecidableEq

/-- Model of `QueryAccumulator::query` (`src/query_executor/query_accumulator.rs`):
the action taken towards the inner stage and the new accumulator state. -/
def query (acc : List Str) (q : Str) : AccAction × List Str :=
  let lower := toLowerStr q
  if setKw.isPrefixOf lower then (.returnNone, lhsInsert acc q)
  else if acc.isEmpty then (.forward q, acc)
  else (.forward (joinSep sepStr acc ++ sepStr ++ q), acc)

end Accumulator

namespace QDT

/-- Parse a digit character. -/
def digitVal (c : Char) : Option Nat :=
  if c.isDigit then some (c.toNat - 48) else none

def digitsToNatGo : Str → Nat → Option Nat
  | [], acc => some acc
  | c :: rest, acc =>
    match digitVal c with
    | none => none
    | some d => digitsToNatGo rest (acc * 10 + d)

/-- A non-empty all-digit string as a natural number. -/
def digitsToNat (s : Str) : Option Nat :=
  if s.isEmpty then none else digitsToNatGo s 0

/-- Model of Rust `FromStr` for signed integers: optional sign, then one or
more digits (range checked separately). -/
def parseIntSigned : Str → Option Int
  | '+' :: rest => (digitsToNat rest).map Int.ofNat
  | '-' :: rest => (digitsToNat rest).map (fun n => -(n : Int))
  | s => (digitsToNat s).map Int.ofNat

/-- Rust `value.parse::<iN>()` for a signed width of `bits` bits. -/
def parseFixedInt (bits : Nat) (s : Str) : Option Int :=
  (parseIntSigned s).bind
    (fun n => if -(2 ^ (bits - 1) : Int) ≤ n ∧ n < 2 ^ (bits - 1) then some n else none)

/-- An IEEE float kept as its source text: the numeric value of a float never
influences control flow in the modelled code, only whether its text parses. -/
structure RustFloat where
  raw : Str
deriving DecidableEq

def allDigits (s : Str) : Bool := s.all Char.isDigit

/-- Split at the first character satisfying `p`; `none` when absent. -/
def splitFirst (p : Char → Bool) : Str → Str × Option Str
  | [] => ([], none)
  | c :: rest =>
    if p c then ([], some rest)
    else
      let (a, b) := splitFirst p rest
      (c :: a, b)

def isMantissa (s : Str) : Bool :=
  match splitFirst (fun c => c == '.') s with
  | (ip, none) => allDigits ip && !ip.isEmpty
  | (ip, some frac) => allDigits ip && allDigits frac && !(ip.isEmpty && frac.isEmpty)

def isExponent (s : Str) : Bool :=
  match s with
  | '+' :: r => allDigits r && !r.isEmpty
  | '-' :: r => allDigits r && !r.isEmpty
  | r => allDigits r && !r.isEmpty

/-- Grammar accepted by Rust `f64::from_str` / `f32::from_str`. -/
def isF64Lit (s : Str) : Bool :=
  let body := match s with | '+' :: r => r | '-' :: r => r | r => r
  let low := toLowerStr body
  low == ['i', 'n', 'f'] || low == ['i', 'n', 'f', 'i', 'n', 'i', 't', 'y'] ||
  low == ['n', 'a', 'n'] ||
  (match splitFirst (fun c => c == 'e' || c == 'E') body with
   | (m, none) => isMantissa m
   | (m, some e) => isMantissa m && isExponent e)

/-- Model of `chrono::NaiveDate`. -/
structure NaiveDateM where
  year : Int
  month : Nat
  day : Nat
deriving DecidableEq

/-- Model of `chrono::NaiveDateTime`. -/
structure NaiveDateTimeM where
  date : NaiveDateM
  hour : Nat
  minute : Nat
  second : Nat
deriving DecidableEq

def isLeapYear (y : Int) : Bool := (y % 4 == 0 && y % 100 != 0) || y % 400 == 0

def daysInMonth (y : Int) (m : Nat) : Nat :=
  if m == 2 then (if isLeapYear y then 29 else 28)
  else if m == 4 || m == 6 || m == 9 || m == 11 then 30
  else 31

/-- Model of `NaiveDate::parse_from_str(value, "%Y-%m-%d")` (non-negative
years; the modelled data never carries signed years). -/
def parse_date (s : Str) : Option NaiveDateM :=
  match splitOnChar '-' s with
  | [ys, ms, ds] => do
    let y ← digitsToNat ys
    let m ← digitsToNat ms
    let d ← digitsToNat ds
    if 1 ≤ m ∧ m ≤ 12 ∧ 1 ≤ d ∧ d ≤ daysInMonth (Int.ofNat y) m then
      some ⟨Int.ofNat y, m, d⟩
    else none
  | _ => none

/-- Model of `NaiveDateTime::parse_from_str(value, "%Y-%m-%d %H:%M:%S")`. -/
def parse_datetime (s : Str) : Option NaiveDateTimeM :=
  match splitOnChar ' ' s with
  | [dstr, tstr] => do
    let d ← parse_date dstr
    match splitOnChar ':' tstr with
    | [hs, ms, ss] => do
      let h ← digitsToNat hs
      let mi ← digitsToNat ms
      let sec ← digitsToNat ss
      if h ≤ 23 ∧ mi ≤ 59 ∧ sec ≤ 59 then some ⟨d, h, mi, sec⟩ else none
    | _ => none
  | _ => none

/-- Model of `query_executor::ColumnValue` as used by
`src/query_executor/query_data_type.rs`: typed variants appear only after
coercion. -/
inductive ColumnValue where
  | Null
  | String (value : Str)
  | I64 (v : Int)
  | I32 (v : Int)
  | I16 (v : Int)
  | I8 (v : Int)
  | Double (v : RustFloat)
  | Float (v : RustFloat)
  | DateTime (v : NaiveDateTimeM)
  | Date (v : NaiveDateM)
deriving DecidableEq

/-- One row of values. -/
abbrev Row := List ColumnValue

/-- One entry of `data_type_info`: the `(Schema, TableName, ColumnName,
ColumnType)` tuple of the introspected catalog. -/
structure CatalogRow where
  schema : Str
  table : Str
  column : Str
  ty : ColumnType
deriving DecidableEq

/-- Error taxonomy of the `anyhow::bail!` sites in
`query_data_type.rs`; `panicked` stands for a Rust panic (an out-of-bounds
index or `.unwrap()` on `None`). -/
inductive Err where
  | multipleStatements
  | onlyQuerys
  | onlySelects
  | onlySimpleTables
  | tooManyNamespaces
  | identTooDeep
  | wildcardInFunctionArg
  | namedFunctionArg
  | panicked
deriving DecidableEq

mutual
/-- Fragment of `sqlparser::ast::Expr` used by the source. -/
inductive ExprA where
  | identifier (value : Str)
  | compoundIdentifier (idents : List Str)
  | functionE (name : List Str) (args : List FunctionArgA)
  | otherExpr
/-- Fragment of `sqlparser::ast::FunctionArg`. -/
inductive FunctionArgA where
  | unnamed (arg : FunctionArgExprA)
  | named (name : Str) (arg : FunctionArgExprA)
/-- Fragment of `sqlparser::ast::FunctionArgExpr`. -/
inductive FunctionArgExprA where
  | exprA (e : ExprA)
  | qualifiedWildcardArg (objName : List Str)
  | wildcardArg
end

inductive SetOperatorA where
  | union
  | exceptOp
  | intersect
deriving DecidableEq

/-- Fragment of `sqlparser::ast::SelectItem`. -/
inductive SelectItemA where
  | unnamedExpr (e : ExprA)
  | exprWithAlias (e : ExprA) (aliasName : Str)
  | qualifiedWildcard (objName : List Str)
  | wildcard

mutual
/-- Fragment of `sqlparser::ast::Query` (only `body` is consulted). -/
inductive QueryA where
  | mk (body : SetExprA)
/-- Fragment of `sqlparser::ast::SetExpr`; `otherSet` stands for the
variants the source rejects. -/
inductive SetExprA where
  | selectE (s : SelectA)
  | setOperation (op : SetOperatorA) (all : Bool) (left : SetExprA) (right : SetExprA)
  | otherSet
/-- Fragment of `sqlparser::ast::Select` (projection and FROM clause). -/
inductive SelectA where
  | mk (projection : List SelectItemA) (fromClause : List TableWithJoinsA)
/-- Fragment of `sqlparser::ast::TableWithJoins`. -/
inductive TableWithJoinsA where
  | mk (relation : TableFactorA) (joins : List JoinA)
/-- Fragment of `sqlparser::ast::Join` (only its relation is consulted). -/
inductive JoinA where
  | mk (relation : TableFactorA)
/-- Fragment of `sqlparser::ast::TableFactor`; `otherFactor` stands for the
variants the source rejects. -/
inductive TableFactorA where
  | table (name : List Str) (aliasName : Option Str)
  | derived (lateral : Bool) (subquery : QueryA) (aliasName : Option Str)
  | otherFactor
end

/-- Fragment of `sqlparser::ast::Statement`; `otherStmt` stands for the
variants the source rejects. -/
inductive StatementA where
  | queryS (q : QueryA)
  | otherStmt

def SelectA.projection : SelectA → List SelectItemA
  | .mk p _ => p

def SelectA.fromClause : SelectA → List TableWithJoinsA
  | .mk _ f => f

def unknownStr : Str := ['u', 'n', 'k', 'n', 'o', 'w', 'n']

/-- Model of `find_type`: first matching `(aliasName, column, type)` triple, with
the untyped `MYSQL_TYPE_STRING` fallback when no triple matches. -/
def find_type (a2ct : List (Str × Str × ColumnType)) (column_name : Str)
    (table_name : Option Str) : Str × ColumnType :=
  ((match table_name with
    | some tn =>
      a2ct.find? (fun (trip : Str × Str × ColumnType) => trip.1 == tn && trip.2.1 == column_name)
    | none =>
      a2ct.find? (fun (trip : Str × Str × ColumnType) => trip.2.1 == column_name)).map
    (fun (trip : Str × Str × ColumnType) =>
      ((trip.2.1, trip.2.2) : Str × ColumnType))).getD (column_name, .MYSQL_TYPE_STRING)

/-- Model of `process_expr`.  Note that the source reads `function.args[1]`
for BOTH the `then` and the `else` argument of `if`. -/
def process_expr (e : ExprA) (a2ct : List (Str × Str × ColumnType)) :
    Except Err (Str × ColumnType) :=
  match e with
  | .identifier v => .ok (find_type a2ct v none)
  | .compoundIdentifier idents =>
    if idents.length > 2 then .error .identTooDeep
    else
      match idents with
      | [i0, i1] => .ok (find_type a2ct i1 (some i0))
      | _ => .error .panicked
  | .functionE name args =>
    match name with
    | [] => .error .panicked
    | n0 :: _ =>
      if n0 == ['i', 'f'] then
        match args with
        | _ :: .unnamed (.exprA e1) :: _ =>
          match process_expr e1 a2ct with
          | .error er => .error er
          | .ok first =>
            match process_expr e1 a2ct with
            | .error er => .error er
            | .ok second =>
              if first.2 == ColumnType.MYSQL_TYPE_STRING then .ok second else .ok first
        | _ :: .unnamed _ :: _ => .error .wildcardInFunctionArg
        | _ :: .named _ _ :: _ => .error .namedFunctionArg
        | _ => .error .panicked
      else .ok (n0, .MYSQL_TYPE_STRING)
  | .otherExpr => .ok (unknownStr, .MYSQL_TYPE_STRING)

/-- The projection loop of `get_columns_types` for a `Select`. -/
def processProjections (projection : List SelectItemA)
    (a2ct : List (Str × Str × ColumnType)) : Except Err (List (Str × ColumnType)) :=
  match projection with
  | [] => .ok []
  | item :: rest =>
    match
      (match item with
       | .unnamedExpr e => (process_expr e a2ct).map (fun r => [r])
       | .exprWithAlias e aliasName =>
         (process_expr e a2ct).map (fun (r : Str × ColumnType) => [(aliasName, r.2)])
       | .qualifiedWildcard objName =>
         if objName.length > 2 then .error .identTooDeep
         else
           match objName with
           | o0 :: _ =>
             .ok ((a2ct.filter (fun (trip : Str × Str × ColumnType) => trip.1 == o0)).map
               (fun (trip : Str × Str × ColumnType) => ((trip.2.1, trip.2.2) : Str × ColumnType)))
           | [] => .error .panicked
       | .wildcard =>
         .ok (a2ct.map
           (fun (trip : Str × Str × ColumnType) => ((trip.2.1, trip.2.2) : Str × ColumnType)))) with
    | .error e => .error e
    | .ok head =>
      match processProjections rest a2ct with
      | .error e => .error e
      | .ok tail => .ok (head ++ tail)

/-- Model of `get_columns_types`. -/
def get_columns_types (set_expr : SetExprA)
    (a2ct : List (Str × Str × ColumnType)) : Except Err (List (Str × ColumnType)) :=
  match set_expr with
  | .selectE sel => processProjections sel.projection a2ct
  | .setOperation .union _ left _ => get_columns_types left a2ct
  | _ => .error .onlySelects

/-- Model of `get_alias_with_clomuns_and_column_type` (source spelling kept):
for each collected `(schema, table, aliasName)`, the catalog rows of that table
projected through the aliasName. -/
def get_alias_with_clomuns_and_column_type (tables : List (Str × Str × Str))
    (data_type_info : List CatalogRow) : List (Str × Str × ColumnType) :=
  tables.flatMap (fun tpl =>
    (data_type_info.filter (fun r => r.schema == tpl.1 && r.table == tpl.2.1)).map
      (fun r => (tpl.2.2, r.column, r.ty)))

mutual
/-- Model of `process_table_factor`; the returned catalog is the input plus
the synthetic rows appended for derived tables. -/
def process_table_factor (tf : TableFactorA) (data_type_info : List CatalogRow)
    (default_schema : Str) :
    Except Err ((Str × Str × Str) × List CatalogRow) :=
  match tf with
  | .table name aliasName =>
    match name with
    | [n0] =>
      .ok ((default_schema, n0, match aliasName with | some a => a | none => n0),
        data_type_info)
    | [n0, n1] =>
      .ok ((n0, n1, match aliasName with | some a => a | none => n1), data_type_info)
    | _ => .error .tooManyNamespaces
  | .derived _ (.mk body) aliasName =>
    match body with
    | .selectE (.mk proj fromCl) =>
      match process_from_list fromCl data_type_info default_schema with
      | .error e => .error e
      | .ok (result, temp) =>
        let a2ct := get_alias_with_clomuns_and_column_type result temp
        match aliasName with
        | none => .error .panicked
        | some a =>
          match get_columns_types (.selectE (.mk proj fromCl)) a2ct with
          | .error e => .error e
          | .ok cols =>
            .ok ((a, a, a),
              data_type_info ++ cols.map (fun ct => ⟨a, a, ct.1, ct.2⟩))
    | _ => .error .onlySelects
  | .otherFactor => .error .onlySimpleTables

/-- The `for table_with_join in &select.from` loop (relation, then joins). -/
def process_from_list (l : List TableWithJoinsA) (data_type_info : List CatalogRow)
    (default_schema : Str) :
    Except Err (List (Str × Str × Str) × List CatalogRow) :=
  match l with
  | [] => .ok ([], data_type_info)
  | .mk relation joins :: rest =>
    match process_table_factor relation data_type_info default_schema with
    | .error e => .error e
    | .ok (t, info1) =>
      match process_join_list joins info1 default_schema with
      | .error e => .error e
      | .ok (ts, info2) =>
        match process_from_list rest info2 default_schema with
        | .error e => .error e
        | .ok (more, info3) => .ok (t :: (ts ++ more), info3)

/-- The `for join in &table_with_join.joins` loop. -/
def process_join_list (l : List JoinA) (data_type_info : List CatalogRow)
    (default_schema : Str) :
    Except Err (List (Str × Str × Str) × List CatalogRow) :=
  match l with
  | [] => .ok ([], data_type_info)
  | .mk relation :: rest =>
    match process_table_factor relation data_type_info default_schema with
    | .error e => .error e
    | .ok (t, info1) =>
      match process_join_list rest info1 default_schema with
      | .error e => .error e
      | .ok (ts, info2) => .ok (t :: ts, info2)
end

/-- Model of `get_tables_with_aliases_from_set_expr`. -/
def get_tables_with_aliases_from_set_expr (set_expr : SetExprA)
    (info : List CatalogRow) (ds : Str) :
    Except Err (List (Str × Str × Str) × List CatalogRow) :=
  match set_expr with
  | .selectE sel => process_from_list sel.fromClause info ds
  | .setOperation .union _ left _ => get_tables_with_aliases_from_set_expr left info ds
  | _ => .error .onlySelects

/-- Model of `get_tables_with_aliases`. -/
def get_tables_with_aliases (ast : List StatementA) (info : List CatalogRow)
    (ds : Str) : Except Err (List (Str × Str × Str) × List CatalogRow) :=
  match ast with
  | [.queryS (.mk body)] => get_tables_with_aliases_from_set_expr body info ds
  | [_] => .error .onlyQuerys
  | _ => .error .multipleStatements

/-- Model of `get_expr`. -/
def get_expr (ast : List StatementA) : Except Err (Option SetExprA) :=
  match ast with
  | [.queryS (.mk body)] => .ok (some body)
  | [_] => .ok none
  | _ => .error .multipleStatements

/-- Model of `QueryDataType::get_columns_types_from_ast`, with the already
loaded catalog (`data_type_info`) and `default_schema` passed explicitly
(`load_internals` only fills them in once). -/
def get_columns_types_from_ast (data_type_info : List CatalogRow)
    (default_schema : Str) (ast : List StatementA) :
    Except Err (List (Str × ColumnType)) :=
  match get_tables_with_aliases ast data_type_info default_schema with
  | .error e => .error e
  | .ok (tables, info1) =>
    let a2ct := get_alias_with_clomuns_and_column_type tables info1
    match get_expr ast with
    | .error e => .error e
    | .ok (some se) => get_columns_types se a2ct
    | .ok none => .error .panicked

/-- The type the catalog associates with `(schema, table, column)`: the type
of the first (and in a real `INFORMATION_SCHEMA` snapshot, only) matching
row. -/
def catalogType (info : List CatalogRow) (s tab c : Str) : Option ColumnType :=
  (info.find? (fun r => (r.schema == s && r.table == tab) && r.column == c)).map
    (fun r => r.ty)

/-- The AST of `select t.c from schema.table t` as produced by the source's
SQL parser. -/
def selectSingleCompound (s tab t c : Str) : StatementA :=
  .queryS (.mk (.selectE (.mk
    [.unnamedExpr (.compoundIdentifier [t, c])]
    [.mk (.table [s, tab] (some t)) []])))

end QDT

namespace QDT

/-- The Rust panics of `ResultWithCustomColumnTypes::get_data`. -/
inductive Panic where
  | wrongColumnCount (expected found : Nat)
  | parseUnwrap
  | nonStringValue
deriving DecidableEq

/-- The per-value coercion of `get_data`: a failed `.parse::<..>().unwrap()`
or `parse_from_str(..).unwrap()` is the `parseUnwrap` panic; a pre-coerced
non-string value is the `nonStringValue` panic.  `DECIMAL`, `NEWDECIMAL`,
`STRING`, `VAR_STRING` and every unlisted tag keep the string. -/
def coerceValue (cv : ColumnValue) (ct : ColumnType) : Except Panic ColumnValue :=
  match cv with
  | .Null => .ok .Null
  | .String value =>
    match ct with
    | .MYSQL_TYPE_LONGLONG =>
      match parseFixedInt 64 value with
      | some n => .ok (.I64 n)
      | none => .error .parseUnwrap
    | .MYSQL_TYPE_LONG | .MYSQL_TYPE_INT24 =>
      match parseFixedInt 32 value with
      | some n => .ok (.I32 n)
      | none => .error .parseUnwrap
    | .MYSQL_TYPE_SHORT | .MYSQL_TYPE_YEAR =>
      match parseFixedInt 16 value with
      | some n => .ok (.I16 n)
      | none => .error .parseUnwrap
    | .MYSQL_TYPE_TINY =>
      match parseFixedInt 8 value with
      | some n => .ok (.I8 n)
      | none => .error .parseUnwrap
    | .MYSQL_TYPE_DOUBLE =>
      if isF64Lit value then .ok (.Double ⟨value⟩) else .error .parseUnwrap
    | .MYSQL_TYPE_FLOAT =>
      if isF64Lit value then .ok (.Float ⟨value⟩) else .error .parseUnwrap
    | .MYSQL_TYPE_TIMESTAMP | .MYSQL_TYPE_DATETIME | .MYSQL_TYPE_DATETIME2 =>
      match parse_datetime value with
      | some dt => .ok (.DateTime dt)
      | none => .error .parseUnwrap
    | .MYSQL_TYPE_DATE =>
      match parse_date value with
      | some d => .ok (.Date d)
      | none => .error .parseUnwrap
    | _ => .ok (.String value)
  | _ => .error .nonStringValue

/-- The per-row coercion closure of `get_data`: zip the row with the
inferred types (zip truncates, as in Rust) and coerce each value; the first
panic aborts the row map. -/
def coerceRow (column_types : List (Str × ColumnType)) (row : Row) :
    Except Panic Row :=
  (row.zip column_types).mapM (fun p => coerceValue p.1 p.2.2)

/-- One element of the wrapped row iterator, as observed by a consumer:
an upstream row error is passed through, a coercion panic aborts. -/
inductive RowItem where
  | ok (r : Row)
  | err (e : Str)
  | panicked (p : Panic)
deriving DecidableEq

def RowItem.isPanic : RowItem → Bool
  | .panicked _ => true
  | _ => false

/-- The `rows.map(..)` closure of `get_data` when inferred types are
present. -/
def mapRowItem (column_types : List (Str × ColumnType))
    (item : Except Str Row) : RowItem :=
  match item with
  | .error e => .err e
  | .ok row =>
    match coerceRow column_types row with
    | .ok r => .ok r
    | .error p => .panicked p

/-- The identity wrapping used when no types were inferred. -/
def passthroughItem (item : Except Str Row) : RowItem :=
  match item with
  | .error e => .err e
  | .ok r => .ok r

/-- The column retyping of `get_data`: each column's `coltype` is replaced
by the inferred type at its position (zip truncates, as in Rust; the length
check has already passed). -/
def applyTypes (columns : List Column) (column_types : List (Str × ColumnType)) :
    List Column :=
  (columns.zip column_types).map (fun p => { p.1 with coltype := p.2.2 })

/-- Model of `ResultWithCustomColumnTypes::get_data`.  The underlying result
is its materialized `get_data` output (header result and row results); the
outer `Except` is a panic raised eagerly while `get_data` itself runs (the
column-count check), which aborts the whole call. -/
def get_data (result : Option (Except Str (List Column) × List (Except Str Row)))
    (column_types : List (Str × ColumnType)) :
    Except Panic (Except Str (List Column) × List RowItem) :=
  match result with
  | some (columns, rows) =>
    if column_types.isEmpty then .ok (columns, rows.map passthroughItem)
    else
      match columns with
      | .ok cols =>
        if cols.length != column_types.length then
          .error (.wrongColumnCount column_types.length cols.length)
        else
          .ok (.ok (applyTypes cols column_types), rows.map (mapRowItem column_types))
      | .error e => .ok (.error e, rows.map (mapRowItem column_types))
  | none =>
    .ok (.ok (column_types.map (fun ct =>
      { table := noneStr, column := ct.1, coltype := ct.2 })), [])

/-- Consuming the wrapped row iterator to the end: the yielded row results,
and the panic that aborted consumption, if any (a panic stops iteration; an
`err` item is yielded and iteration continues). -/
def consumeRows : List RowItem → List (Except Str Row) × Option Panic
  | [] => ([], none)
  | .panicked p :: _ => ([], some p)
  | .ok r :: rest =>
    let (l, p) := consumeRows rest
    (.ok r :: l, p)
  | .err e :: rest =>
    let (l, p) := consumeRows rest
    (.error e :: l, p)

/-- The row result a consumer sees for a non-panicking item. -/
def yieldItem : RowItem → Except Str Row
  | .ok r => .ok r
  | .err e => .error e
  | .panicked _ => .error []

end QDT

namespace Cache

/-- Rows and columns as the cache stores them. -/
abbrev Row := QDT.Row

/-- A fully materialized result (`CachedResult` in
`src/query_executor/query_cache.rs`). -/
structure CachedResult where
  columns : List Column
  rows : List Row
deriving DecidableEq

/-- The materialized behaviour of the inner executor's result: its header
result and its row results. -/
abbrev InnerResult := Except Str (List Column) × List (Except Str Row)

/-- Model of `CachedQueryResult`. -/
inductive CachedQueryResult where
  | cachedResult (c : CachedResult)
  | result (r : InnerResult)
deriving DecidableEq

/-- One scripted response of the inner executor
(`executor.query` returning `Err`, `Ok(None)` or `Ok(Some(result))`). -/
inductive InnerResponse where
  | err (e : Str)
  | ok (r : Option InnerResult)

/-- Model of `QueryStorage::get` over an association list; insertions
prepend, so the first match is the latest insertion (`DashMap::insert`
replaces). -/
def storageGet (storage : List (Str × CachedResult)) (q : Str) :
    Option CachedResult :=
  (storage.find? (fun e => e.1 == q)).map (fun e => e.2)

/-- Model of `QueryStorage::store`. -/
def storageStore (storage : List (Str × CachedResult)) (q : Str)
    (columns : List Column) (rows : List Row) : List (Str × CachedResult) :=
  (q, ⟨columns, rows⟩) :: storage

/-- The shared storage plus a count of inner-executor invocations; the
inner executor is a scripted oracle indexed by invocation number. -/
structure CacheState where
  storage : List (Str × CachedResult)
  calls : Nat
deriving DecidableEq

/-- Model of `rows.collect::<Result<Vec<Row>>>()`: the first error aborts. -/
def collectRows : List (Except Str Row) → Except Str (List Row)
  | [] => .ok []
  | .error e :: _ => .error e
  | .ok r :: rest => (collectRows rest).map (fun l => r :: l)

/-- Model of `QueryCache::query` (`src/query_executor/query_cache.rs`):
a storage hit returns the cached clone without delegating; a miss delegates,
and only when the query is allow-listed and the whole result materializes
does it store and return the materialized result. -/
def query (queries_to_cache : List Str) (inner : Nat → InnerResponse)
    (st : CacheState) (q : Str) :
    Except Str (Option CachedQueryResult) × CacheState :=
  match storageGet st.storage q with
  | some result => (.ok (some (.cachedResult result)), st)
  | none =>
    let resp := inner st.calls
    let st1 : CacheState := { st with calls := st.calls + 1 }
    match resp with
    | .err e => (.error e, st1)
    | .ok none => (.ok none, st1)
    | .ok (some result) =>
      if !(queries_to_cache.contains q) then (.ok (some (.result result)), st1)
      else
        match result.1 with
        | .error e => (.error e, st1)
        | .ok columns =>
          match collectRows result.2 with
          | .error e => (.error e, st1)
          | .ok rows =>
            (.ok (some (.cachedResult ⟨columns, rows⟩)),
             { st1 with storage := storageStore st1.storage q columns rows })

end Cache

namespace Runops

/-- The literal prefixes and sentinel of `RunopsApi::query`. -/
def httpsStr : Str := ['h', 't', 't', 'p', 's', ':', '/', '/']

def emptyLogsStr : Str :=
  ['T','a','s','k',' ','r','e','t','u','r','n','e','d',' ','e','m','p','t','y',' ','l','o','g','s']

def errorStr : Str := ['E', 'R', 'R', 'O', 'R']

def runningStr : Str :=
  ['Y','o','u','r',' ','t','a','s','k',' ','i','s',' ','r','u','n','n','i','n','g','.']

/-- HTTP statuses distinguished by the polling loop. -/
inductive PollStatus where
  | badRequest
  | okStatus
  | otherStatus (code : Nat)

/-- One scripted response of `GET /v1/tasks/{id}/logs`: the status, and the
`logs_url` carried by a 200 body. -/
structure PollResponse where
  status : PollStatus
  logs_url : Str

/-- The observable outcome of `RunopsApi::query` given a parsed task
response (transport and JSON failures happen before the dispatch being
modelled).  `ok` carries the text of the byte stream handed to
`ReaderQueryResult::new`. -/
inductive RunopsOutcome where
  | ok (result : Option Str)
  | sqlError (error : Str)
  | invalidStatus (code : Nat)
  | stillPolling
deriving DecidableEq

/-- The `loop` of `RunopsApi::query`: 400 keeps polling, 200 fetches the
body's `logs_url`, anything else fails.  When the scripted responses run
out the loop would still be polling (`stillPolling`). -/
def pollLoop (fetch : Str → Str) : List PollResponse → RunopsOutcome
  | [] => .stillPolling
  | r :: rest =>
    match r.status with
    | .badRequest => pollLoop fetch rest
    | .okStatus => .ok (some (fetch r.logs_url))
    | .otherStatus code => .invalidStatus code

/-- Model of the dispatch of `RunopsApi::query` on `task_logs`
(`src/query_executor/runops.rs`); `fetch` abstracts a successful
`reqwest::blocking::get` of a URL, `polls` scripts the polling loop's
responses.  The task id only names the polled URL and does not influence
the dispatch. -/
def query (fetch : Str → Str) (task_logs : Str) (polls : List PollResponse) :
    RunopsOutcome :=
  if httpsStr.isPrefixOf task_logs then .ok (some (fetch task_logs))
  else if task_logs == emptyLogsStr then .ok none
  else if errorStr.isPrefixOf task_logs then .sqlError task_logs
  else if runningStr.isPrefixOf task_logs then pollLoop fetch polls
  else .ok (some task_logs)

end Runops

namespace Pipeline

/-- The decorator chain as a nesting structure: each constructor is one
`X::new(inner, ..)` call of `src/main.rs`. -/
inductive Stage where
  | runopsApi
  | queryAccumulator (inner : Stage)
  | queryDataType (inner : Stage)
  | queryFilter (inner : Stage)
  | querySanitizer (inner : Stage)
  | queryCache (inner : Stage)
deriving DecidableEq

/-- Model of `construct_query_executor_with_data_type` (`src/main.rs`):
`QueryCache::new(QuerySanitizer::new(QueryFilter::new(QueryDataType::new(
QueryAccumulator::new(runops_api), ..))), ..)`. -/
def construct_query_executor_with_data_type : Stage :=
  .queryCache (.querySanitizer (.queryFilter (.queryDataType
    (.queryAccumulator .runopsApi))))

/-- Stage names, for listing a chain outermost-first. -/
inductive StageName where
  | cache
  | sanitizer
  | filter
  | dataType
  | accumulator
  | runops
deriving DecidableEq

/-- The chain listed outermost-first. -/
def stages : Stage → List StageName
  | .runopsApi => [.runops]
  | .queryAccumulator inner => .accumulator :: stages inner
  | .queryDataType inner => .dataType :: stages inner
  | .queryFilter inner => .filter :: stages inner
  | .querySanitizer inner => .sanitizer :: stages inner
  | .queryCache inner => .cache :: stages inner

/-- The composition the specification describes: cache, then sanitizer,
filter, accumulator, inference, task client (written from the spec's words,
to be compared with the source's construction). -/
def specClaimedComposition : Stage :=
  .queryCache (.querySanitizer (.queryFilter (.queryAccumulator
    (.queryDataType .runopsApi))))

end Pipeline

namespace Sanitizer

/-- Model of `itertools::tuple_windows` over the characters. -/
def tupleWindows : Str → List (Char × Char)
  | [] => []
  | [_] => []
  | a :: b :: rest => (a, b) :: tupleWindows (b :: rest)

/-- Model of `remove_comments_from_the_start`: drop character windows until
the first `*/`, skip that window, keep the second character of each
remaining window. -/
def remove_comments_from_the_start (query : Str) : Str :=
  ((((tupleWindows query).dropWhile
    (fun p => !(p.1 == '*' && p.2 == '/'))).drop 1).map (fun p => p.2))

/-- The literal pattern replaced by the sanitizer. -/
def atLanguageStr : Str := ['@', '@', 'l', 'a', 'n', 'g', 'u', 'a', 'g', 'e']

/-- The literal replacement text. -/
def englishStr : Str := ['\'', 'e', 'n', 'g', 'l', 'i', 's', 'h', '\'']

def dashDash : Str := ['-', '-']

def hashStr : Str := ['#']

/-- Model of `str::replace("@@language", "'english'")`: left-to-right,
non-overlapping. -/
def replaceLanguage (s : Str) : Str :=
  match s with
  | [] => []
  | c :: rest =>
    if atLanguageStr.isPrefixOf (c :: rest) then
      englishStr ++ replaceLanguage ((c :: rest).drop atLanguageStr.length)
    else c :: replaceLanguage rest
termination_by s.length
decreasing_by
  · simp [atLanguageStr]
    omega
  · simp

/-- The line-level part of `QuerySanitizer::query`: trim, split into lines,
trim each, drop comment lines, rejoin, replace `@@language`. -/
def sanitizeLines (q : Str) : Str :=
  replaceLanguage (joinSep ['\n']
    ((((rustLines (trimStr q)).map trimStr).filter
      (fun line => !(dashDash.isPrefixOf (trimStr line)))).filter
      (fun line => !(hashStr.isPrefixOf (trimStr line)))))

/-- Model of `QuerySanitizer::query` (`src/query_executor/query_sanitizer.rs`):
the string passed to the inner stage. -/
def query (q : Str) : Str :=
  let q1 := trimStr q
  sanitizeLines (if q1.head? == some '/' then remove_comments_from_the_start q1 else q1)

/-- A leading block comment, as the specification claim words it: the text
starts with an (eventually closed) block-comment opener. -/
def hasLeadingBlockComment (s : Str) : Bool :=
  (['/', '*'] : Str).isPrefixOf s && containsSeq s ['*', '/']

end Sanitizer

/-- Claim C5: a call whose lower-cased text starts with `set` inserts the
text into the accumulator (first-insertion order, dedup on exact equality),
returns no result and never invokes the inner stage; a non-`set` call with
empty accumulator delegates the text unchanged; a non-`set` call with
accumulated statements delegates the single joined string
`s1 + ";\n" + ... + ";\n" + sql`. -/
theorem c5_accumulator_replay (acc : List Str) (q : Str) :
    (Accumulator.setKw.isPrefixOf (toLowerStr q) = true →
      Accumulator.query acc q =
        (.returnNone, if acc.contains q then acc else acc ++ [q])) ∧
    (Accumulator.setKw.isPrefixOf (toLowerStr q) = false → acc = [] →
      Accumulator.query acc q = (.forward q, [])) ∧
    (Accumulator.setKw.isPrefixOf (toLowerStr q) = false → acc ≠ [] →
      Accumulator.query acc q =
        (.forward (joinSep Accumulator.sepStr acc ++ Accumulator.sepStr ++ q), acc)) := by
  refine ⟨fun h => ?_, fun h he => ?_, fun h hne => ?_⟩
  · simp [Accumulator.query, Accumulator.lhsInsert, h]
  · subst he
    simp [Accumulator.query, h]
  · have : acc.isEmpty = false := by
      cases acc with
      | nil => exact absurd rfl hne
      | cons a l => rfl
    simp [Accumulator.query, h, this]

theorem c5_accumulator_replay_witness :
    (Accumulator.query [] ['S', 'E', 'T', ' ', 'a'] =
      (.returnNone,
        if ([] : List Str).contains ['S', 'E', 'T', ' ', 'a'] then []
        else [] ++ [['S', 'E', 'T', ' ', 'a']])) ∧
    (Accumulator.query [] ['s', 'e', 'l', 'e', 'c', 't', ' ', '1'] =
      (.forward ['s', 'e', 'l', 'e', 'c', 't', ' ', '1'], [])) ∧
    (Accumulator.query [['s', 'e', 't', ' ', 'a']] ['q'] =
      (.forward (joinSep Accumulator.sepStr [['s', 'e', 't', ' ', 'a']] ++
        Accumulator.sepStr ++ ['q']), [['s', 'e', 't', ' ', 'a']])) :=
  ⟨(c5_accumulator_replay [] ['S', 'E', 'T', ' ', 'a']).1 (by decide),
   (c5_accumulator_replay [] ['s', 'e', 'l', 'e', 'c', 't', ' ', '1']).2.1 (by decide) rfl,
   (c5_accumulator_replay [['s', 'e', 't', ' ', 'a']] ['q']).2.2 (by decide) (by decide)⟩

/-- Claim C6 counterexample: the pipeline built by
`construct_query_executor_with_data_type` is NOT the composition the claim
describes (cache, sanitizer, filter, accumulator, inference, client): the
source nests `QueryDataType` around `QueryAccumulator`, not inside it. -/
theorem c6_composition_counterexample :
    Pipeline.construct_query_executor_with_data_type ≠
      Pipeline.specClaimedComposition := by decide

/-- Claim C6 (amended): with type discovery enabled the chain is cache,
then sanitizer, then filter, then TYPE-INFERENCE, then the session
ACCUMULATOR, with the task-API client innermost — every query reaches type
inference before the accumulator. -/
theorem c6_composition_amended :
    Pipeline.stages Pipeline.construct_query_executor_with_data_type =
      [.cache, .sanitizer, .filter, .dataType, .accumulator, .runops] := by decide

/-- A `Bool`-level prefix fact: a prefix determines the head. -/
theorem isPrefixOf_cons_ex {a : Char} {p l : Str}
    (h : (a :: p).isPrefixOf l = true) : ∃ t, l = a :: t ∧ p.isPrefixOf t = true := by
  cases l with
  | nil => simp [List.isPrefixOf] at h
  | cons b t =>
    simp only [List.isPrefixOf, Bool.and_eq_true, beq_iff_eq] at h
    exact ⟨t, by rw [h.1], h.2⟩

/-- The polling loop never produces a `sqlError` outcome. -/
theorem pollLoop_ne_sqlError (fetch : Str → Str) (polls : List Runops.PollResponse)
    (e : Str) : Runops.pollLoop fetch polls ≠ .sqlError e := by
  induction polls with
  | nil => simp [Runops.pollLoop]
  | cons r rest ih =>
    cases h : r.status <;> simp [Runops.pollLoop, h]
    exact ih

/-- Claim C9: the task client's dispatch on `task_logs` returns no result
for the exact sentinel `Task returned empty logs`, fails with a `SqlError`
carrying the `task_logs` text for an `ERROR`-prefixed response, and
produces a `SqlError` outcome exactly for `ERROR`-prefixed responses. -/
theorem c9_runops_dispatch (fetch : Str → Str) (task_logs : Str)
    (polls : List Runops.PollResponse) :
    (task_logs = Runops.emptyLogsStr →
      Runops.query fetch task_logs polls = .ok none) ∧
    (Runops.errorStr.isPrefixOf task_logs = true →
      Runops.query fetch task_logs polls = .sqlError task_logs) ∧
    ((∃ e, Runops.query fetch task_logs polls = .sqlError e) ↔
      Runops.errorStr.isPrefixOf task_logs = true) := by
  have hEmp : task_logs = Runops.emptyLogsStr →
      Runops.query fetch task_logs polls = .ok none := by
    intro h
    subst h
    have h1 : Runops.httpsStr.isPrefixOf Runops.emptyLogsStr = false := by decide
    simp [Runops.query, h1]
  have hErr : Runops.errorStr.isPrefixOf task_logs = true →
      Runops.query fetch task_logs polls = .sqlError task_logs := by
    intro h
    obtain ⟨t, rfl, -⟩ := isPrefixOf_cons_ex h
    have h1 : Runops.httpsStr.isPrefixOf ('E' :: t) = false := by
      simp [Runops.httpsStr, List.isPrefixOf]
    have h2 : ('E' :: t) ≠ Runops.emptyLogsStr := by
      intro hh
      have := congrArg List.head? hh
      simp [Runops.emptyLogsStr] at this
    simp [Runops.query, h1, h2, h]
  refine ⟨hEmp, hErr, ?_, fun h => ⟨task_logs, hErr h⟩⟩
  rintro ⟨e, he⟩
  by_contra hno
  rw [Bool.not_eq_true] at hno
  unfold Runops.query at he
  rw [hno] at he
  split at he
  · simp at he
  · split at he
    · simp at he
    · simp only [if_false, Bool.false_eq_true] at he
      split at he
      · exact pollLoop_ne_sqlError fetch polls e he
      · simp at he

theorem c9_runops_dispatch_witness :
    (Runops.query (fun _ => []) Runops.emptyLogsStr [] = .ok none) ∧
    (Runops.query (fun _ => []) ['E', 'R', 'R', 'O', 'R', ':', ' ', 'x'] [] =
      .sqlError ['E', 'R', 'R', 'O', 'R', ':', ' ', 'x']) :=
  ⟨(c9_runops_dispatch (fun _ => []) Runops.emptyLogsStr []).1 rfl,
   (c9_runops_dispatch (fun _ => []) ['E', 'R', 'R', 'O', 'R', ':', ' ', 'x'] []).2.1
     (by decide)⟩

/-- A cache miss on a non-allow-listed query always delegates once and
leaves the storage unchanged. -/
theorem cache_query_uncached_state (C : List Str) (inner : Nat → Cache.InnerResponse)
    (st : Cache.CacheState) (q : Str) (hC : C.contains q = false)
    (hget : Cache.storageGet st.storage q = none) :
    (Cache.query C inner st q).2 = { st with calls := st.calls + 1 } := by
  unfold Cache.query
  rw [hget]
  cases hresp : inner st.calls with
  | err e => rfl
  | ok o =>
    cases o with
    | none => rfl
    | some res =>
      have hq : q ∉ C := by simpa using hC
      simp [hq]

/-- Claim C4: for an allow-listed query, once a first call (from a state
with no entry for it) has returned a result, a second call returns the very
same result from the very same state — zero further inner invocations, and
bit-equal columns and rows; for a non-allow-listed query, two calls each
invoke the inner stage exactly once. -/
theorem c4_cache_semantics (C : List Str) (inner : Nat → Cache.InnerResponse)
    (st0 st1 : Cache.CacheState) (q : Str) (r1 : Cache.CachedQueryResult) :
    (C.contains q = true → Cache.storageGet st0.storage q = none →
      Cache.query C inner st0 q = (.ok (some r1), st1) →
      Cache.query C inner st1 q = (.ok (some r1), st1)) ∧
    (C.contains q = false → Cache.storageGet st0.storage q = none →
      (Cache.query C inner st0 q).2.storage = st0.storage ∧
      (Cache.query C inner st0 q).2.calls = st0.calls + 1 ∧
      (Cache.query C inner (Cache.query C inner st0 q).2 q).2.calls = st0.calls + 2) := by
  constructor
  · intro hC hget hfirst
    unfold Cache.query at hfirst
    rw [hget] at hfirst
    cases hresp : inner st0.calls with
    | err e => rw [hresp] at hfirst; simp at hfirst
    | ok o =>
      rw [hresp] at hfirst
      cases o with
      | none => simp at hfirst
      | some res =>
        obtain ⟨rc, rr⟩ := res
        rw [hC] at hfirst
        simp only [Bool.not_true, Bool.false_eq_true, if_false] at hfirst
        cases rc with
        | error e => simp at hfirst
        | ok cols =>
          cases hrows : Cache.collectRows rr with
          | error e => rw [hrows] at hfirst; simp at hfirst
          | ok rows =>
            rw [hrows] at hfirst
            simp only [Prod.mk.injEq, Except.ok.injEq, Option.some.injEq] at hfirst
            obtain ⟨hr1, hst1⟩ := hfirst
            unfold Cache.query
            rw [← hst1]
            simp [Cache.storageGet, Cache.storageStore, hr1]
  · intro hC hget
    have h1 := cache_query_uncached_state C inner st0 q hC hget
    have h2 := cache_query_uncached_state C inner
      { st0 with calls := st0.calls + 1 } q hC hget
    rw [h1]
    exact ⟨rfl, rfl, by rw [h2]⟩

theorem c4_cache_semantics_witness :
    (Cache.query [['q']]
      (fun _ => .ok (some (.ok [⟨noneStr, ['c'], .MYSQL_TYPE_STRING⟩],
        [.ok [.String ['v']]])))
      ⟨[(['q'], ⟨[⟨noneStr, ['c'], .MYSQL_TYPE_STRING⟩], [[.String ['v']]]⟩)],
        1⟩ ['q'] =
      (.ok (some (.cachedResult
        ⟨[⟨noneStr, ['c'], .MYSQL_TYPE_STRING⟩], [[.String ['v']]]⟩)),
       ⟨[(['q'], ⟨[⟨noneStr, ['c'], .MYSQL_TYPE_STRING⟩], [[.String ['v']]]⟩)], 1⟩)) ∧
    ((Cache.query [] (fun _ => .ok none) ⟨[], 0⟩ ['q']).2.storage = [] ∧
     (Cache.query [] (fun _ => .ok none) ⟨[], 0⟩ ['q']).2.calls = 1 ∧
     (Cache.query [] (fun _ => .ok none)
       (Cache.query [] (fun _ => .ok none) ⟨[], 0⟩ ['q']).2 ['q']).2.calls = 2) :=
  ⟨(c4_cache_semantics [['q']]
      (fun _ => .ok (some (.ok [⟨noneStr, ['c'], .MYSQL_TYPE_STRING⟩],
        [.ok [.String ['v']]])))
      ⟨[], 0⟩
      ⟨[(['q'], ⟨[⟨noneStr, ['c'], .MYSQL_TYPE_STRING⟩], [[.String ['v']]]⟩)], 1⟩
      ['q']
      (.cachedResult ⟨[⟨noneStr, ['c'], .MYSQL_TYPE_STRING⟩], [[.String ['v']]]⟩)).1
      (by decide) (by decide) (by decide),
   (c4_cache_semantics [] (fun _ => .ok none) ⟨[], 0⟩ ⟨[], 0⟩ ['q']
      (.cachedResult ⟨[], []⟩)).2 (by decide) (by decide)⟩

/-- Claim C10: for an allow-listed query with no cache entry, an inner
`Ok(None)`, an inner error, a failed header, or a failed row all yield that
same outcome from the cache, and the storage is never touched (an entry is
stored only after columns and all rows materialize). -/
theorem c10_cache_error_passthrough (C : List Str) (inner : Nat → Cache.InnerResponse)
    (st : Cache.CacheState) (q : Str) (hC : C.contains q = true)
    (hget : Cache.storageGet st.storage q = none) :
    (inner st.calls = .ok none →
      Cache.query C inner st q = (.ok none, { st with calls := st.calls + 1 })) ∧
    (∀ e, inner st.calls = .err e →
      Cache.query C inner st q = (.error e, { st with calls := st.calls + 1 })) ∧
    (∀ e rr, inner st.calls = .ok (some (.error e, rr)) →
      Cache.query C inner st q = (.error e, { st with calls := st.calls + 1 })) ∧
    (∀ cols rr e, inner st.calls = .ok (some (.ok cols, rr)) →
      Cache.collectRows rr = .error e →
      Cache.query C inner st q = (.error e, { st with calls := st.calls + 1 })) := by
  refine ⟨fun h => ?_, fun e h => ?_, fun e rr h => ?_, fun cols rr e h hrows => ?_⟩
  · unfold Cache.query
    rw [hget, h]
  · unfold Cache.query
    rw [hget, h]
  · unfold Cache.query
    rw [hget, h]
    have hq : q ∈ C := by simpa using hC
    simp [hq]
  · unfold Cache.query
    rw [hget, h]
    have hq : q ∈ C := by simpa using hC
    simp [hq, hrows]

theorem c10_cache_error_passthrough_witness :
    (Cache.query [['q']] (fun _ => .ok none) ⟨[], 0⟩ ['q'] = (.ok none, ⟨[], 1⟩)) ∧
    (Cache.query [['q']] (fun _ => .err ['e']) ⟨[], 0⟩ ['q'] = (.error ['e'], ⟨[], 1⟩)) ∧
    (Cache.query [['q']] (fun _ => .ok (some (.error ['h'], []))) ⟨[], 0⟩ ['q'] =
      (.error ['h'], ⟨[], 1⟩)) ∧
    (Cache.query [['q']] (fun _ => .ok (some (.ok [], [.error ['r']]))) ⟨[], 0⟩ ['q'] =
      (.error ['r'], ⟨[], 1⟩)) :=
  ⟨(c10_cache_error_passthrough [['q']] (fun _ => .ok none) ⟨[], 0⟩ ['q']
      (by decide) (by decide)).1 rfl,
   (c10_cache_error_passthrough [['q']] (fun _ => .err ['e']) ⟨[], 0⟩ ['q']
      (by decide) (by decide)).2.1 ['e'] rfl,
   (c10_cache_error_passthrough [['q']] (fun _ => .ok (some (.error ['h'], []))) ⟨[], 0⟩
      ['q'] (by decide) (by decide)).2.2.1 ['h'] [] rfl,
   (c10_cache_error_passthrough [['q']] (fun _ => .ok (some (.ok [], [.error ['r']])))
      ⟨[], 0⟩ ['q'] (by decide) (by decide)).2.2.2 [] [.error ['r']] ['r'] rfl (by decide)⟩

/-- Claim C3: with a non-empty inferred type list and a header whose length
differs from it, `get_data` fails as a whole, deterministically, before any
row is produced. -/
theorem c3_column_count_guard (cols : List Column) (rows : List (Except Str QDT.Row))
    (column_types : List (Str × ColumnType)) (h1 : column_types ≠ [])
    (h2 : cols.length ≠ column_types.length) :
    QDT.get_data (some (.ok cols, rows)) column_types =
      .error (.wrongColumnCount column_types.length cols.length) := by
  have hne : column_types.isEmpty = false := by
    cases column_types with
    | nil => exact absurd rfl h1
    | cons a l => rfl
  simp [QDT.get_data, hne, h2]

theorem c3_column_count_guard_witness :
    QDT.get_data (some (.ok [], [])) [(['x'], .MYSQL_TYPE_STRING)] =
      .error (.wrongColumnCount 1 0) :=
  c3_column_count_guard [] [] [(['x'], .MYSQL_TYPE_STRING)] (by decide) (by decide)

/-- Claim C2 counterexample: with inferred type `bigint` and underlying rows
`["abc"]` then `["7"]`, the unparsable first value does NOT fail only its
own row — consuming the wrapped rows panics at once
(`value.parse::<i64>().unwrap()`), zero rows are yielded, and the parseable
second row is never produced.  The claim predicts a first failed row
followed by `Ok [I64 7]`. -/
theorem c2_counterexample :
    QDT.consumeRows (([Except.ok [QDT.ColumnValue.String ['a', 'b', 'c']],
        Except.ok [QDT.ColumnValue.String ['7']]]).map
      (QDT.mapRowItem [(['x'], .MYSQL_TYPE_LONGLONG)])) =
      ([], some .parseUnwrap) := by decide

/-- Claim C2 (amended): under a non-empty inferred type list, a row value
that cannot be parsed under its inferred type raises a panic that ABORTS
row consumption at that row: rows before it (including rows that arrived as
errors, which are passed through and do not stop iteration) are yielded,
the failing row and all later rows are not. -/
theorem c2_coercion_panic_aborts (column_types : List (Str × ColumnType))
    (cols : List Column) (pre post : List (Except Str QDT.Row)) (bad : QDT.Row)
    (p : QDT.Panic) (h1 : column_types ≠ []) (h2 : cols.length = column_types.length)
    (hpre : ∀ it ∈ pre, (QDT.mapRowItem column_types it).isPanic = false)
    (hbad : QDT.coerceRow column_types bad = .error p) :
    QDT.get_data (some (.ok cols, pre ++ .ok bad :: post)) column_types =
      .ok (.ok (QDT.applyTypes cols column_types),
        (pre ++ .ok bad :: post).map (QDT.mapRowItem column_types)) ∧
    QDT.consumeRows ((pre ++ .ok bad :: post).map (QDT.mapRowItem column_types)) =
      (pre.map (fun it => QDT.yieldItem (QDT.mapRowItem column_types it)), some p) := by
  constructor
  · have hne : column_types.isEmpty = false := by
      cases column_types with
      | nil => exact absurd rfl h1
      | cons a l => rfl
    simp [QDT.get_data, hne, h2]
  · induction pre with
    | nil =>
      simp only [List.nil_append, List.map_cons, List.map_nil]
      have : QDT.mapRowItem column_types (.ok bad) = .panicked p := by
        simp [QDT.mapRowItem, hbad]
      rw [this]
      rfl
    | cons it pre' ih =>
      have hit := hpre it (List.mem_cons_self it pre')
      have hrest := ih (fun x hx => hpre x (List.mem_cons_of_mem it hx))
      cases h : QDT.mapRowItem column_types it with
      | ok r =>
        simp only [List.cons_append, List.map_cons, h, QDT.consumeRows, hrest]
        simp [QDT.yieldItem, h]
      | err e =>
        simp only [List.cons_append, List.map_cons, h, QDT.consumeRows, hrest]
        simp [QDT.yieldItem, h]
      | panicked pp =>
        rw [h] at hit
        simp [QDT.RowItem.isPanic] at hit

theorem c2_coercion_panic_aborts_witness :
    QDT.get_data
        (some (.ok [⟨noneStr, ['x'], .MYSQL_TYPE_STRING⟩],
          [Except.ok [QDT.ColumnValue.String ['7']], Except.error ['e'],
           Except.ok [QDT.ColumnValue.String ['a', 'b', 'c']],
           Except.ok [QDT.ColumnValue.String ['8']]]))
        [(['x'], .MYSQL_TYPE_LONGLONG)] =
      .ok (.ok (QDT.applyTypes [⟨noneStr, ['x'], .MYSQL_TYPE_STRING⟩]
          [(['x'], .MYSQL_TYPE_LONGLONG)]),
        ([Except.ok [QDT.ColumnValue.String ['7']], Except.error ['e']] ++
          Except.ok [QDT.ColumnValue.String ['a', 'b', 'c']] ::
            [Except.ok [QDT.ColumnValue.String ['8']]]).map
          (QDT.mapRowItem [(['x'], .MYSQL_TYPE_LONGLONG)])) ∧
    QDT.consumeRows
        (([Except.ok [QDT.ColumnValue.String ['7']], Except.error ['e']] ++
          Except.ok [QDT.ColumnValue.String ['a', 'b', 'c']] ::
            [Except.ok [QDT.ColumnValue.String ['8']]]).map
          (QDT.mapRowItem [(['x'], .MYSQL_TYPE_LONGLONG)])) =
      ([Except.ok [QDT.ColumnValue.String ['7']], Except.error ['e']].map
        (fun it => QDT.yieldItem (QDT.mapRowItem [(['x'], .MYSQL_TYPE_LONGLONG)] it)),
       some .parseUnwrap) :=
  c2_coercion_panic_aborts [(['x'], .MYSQL_TYPE_LONGLONG)]
    [⟨noneStr, ['x'], .MYSQL_TYPE_STRING⟩]
    [Except.ok [QDT.ColumnValue.String ['7']], Except.error ['e']]
    [Except.ok [QDT.ColumnValue.String ['8']]]
    [QDT.ColumnValue.String ['a', 'b', 'c']]
    .parseUnwrap (by decide) (by decide) (by decide) (by decide)

/-- Filtering then mapping is a `filterMap`. -/
theorem filter_map_eq_filterMap {α β : Type} (p : α → Bool) (f : α → β) (l : List α) :
    (l.filter p).map f = l.filterMap (fun x => if p x then some (f x) else none) := by
  induction l with
  | nil => rfl
  | cons a l ih =>
    cases h : p a <;> simp [List.filter, List.filterMap, h, ih]

/-- Claim C8 counterexample: for the stream `a\t\tb\nx\n` the source drops
the INTERIOR empty header field as well, producing columns `a, b`, while
the claim (only trailing empties dropped) predicts `a, <empty>, b`. -/
theorem c8_reader_counterexample :
    (Reader.get_columns ['a', '\t', '\t', 'b', '\n', 'x', '\n']).map
        (fun c => c.column) ≠
      Reader.specHeaderTrailingOnly ['a', '\t', '\t', 'b', '\n', 'x', '\n'] := by
  decide

/-- Claim C8 (amended): the header is the first line split on tab with each
field trimmed and ALL empty fields dropped (wherever they occur), every
kept column carrying the untyped string tag; the rows are the remaining
lines with empty lines skipped, each split on tab, the literal `NULL`
becoming the null value and every other field a string value. -/
theorem c8_reader_roundtrip (input : Str) :
    Reader.get_columns input =
      (Reader.specHeaderAllEmptyDropped input).map
        (fun c => { table := noneStr, column := c, coltype := .MYSQL_TYPE_STRING }) ∧
    Reader.get_rows input = Reader.specRows input := by
  constructor
  · rfl
  · show ((rustLines (read_line input).2).filter (fun row => !row.isEmpty)).map _ = _
    rw [filter_map_eq_filterMap]
    show List.filterMap _ _ = List.filterMap _ _
    congr 1
    funext line
    cases h : line.isEmpty <;> simp [h]

/-- `find?` respects pointwise-equal predicates. -/
theorem find?_ext {α : Type} {p q : α → Bool} (h : ∀ a, p a = q a) :
    ∀ l : List α, l.find? p = l.find? q := by
  intro l
  induction l with
  | nil => rfl
  | cons a l ih =>
    rw [List.find?_cons, List.find?_cons, h a, ih]

/-- `find?` over a `map`. -/
theorem find?_map_lemma {α β : Type} (f : α → β) (p : β → Bool) (l : List α) :
    (l.map f).find? p = (l.find? (fun a => p (f a))).map f := by
  induction l with
  | nil => rfl
  | cons a l ih =>
    rw [List.map_cons, List.find?_cons, List.find?_cons]
    cases h : p (f a) <;> simp [h, ih]

/-- `find?` over a `filter`. -/
theorem find?_filter_lemma {α : Type} (g p : α → Bool) (l : List α) :
    (l.filter g).find? p = l.find? (fun a => g a && p a) := by
  induction l with
  | nil => rfl
  | cons a l ih =>
    cases hg : g a with
    | false => simp [List.filter, hg, List.find?_cons, ih]
    | true =>
      rw [List.filter, hg]
      rw [List.find?_cons, List.find?_cons]
      cases hp : p a <;> simp [hg, hp, ih]

/-- Resolving the single aliased table of `select t.c from s.tab t`. -/
theorem process_single_table (s tab t : Str) (info : List QDT.CatalogRow) (ds : Str) :
    QDT.process_from_list [.mk (.table [s, tab] (some t)) []] info ds =
      .ok ([(s, tab, t)], info) := by
  simp [QDT.process_from_list, QDT.process_table_factor, QDT.process_join_list]

/-- Claim C1: whenever the catalog associates type `ty` with
`(schema, table, c)`, the projection the inference stage computes for the
AST of `select t.c from schema.table t` is exactly `[(c, ty)]` — the
inferred type at position 0 is the catalog's type. -/
theorem c1_type_inference_soundness (info : List QDT.CatalogRow) (ds s tab t c : Str)
    (ty : ColumnType) (h : QDT.catalogType info s tab c = some ty) :
    QDT.get_columns_types_from_ast info ds [QDT.selectSingleCompound s tab t c] =
      .ok [(c, ty)] := by
  obtain ⟨row, hrow, hty⟩ := Option.map_eq_some'.mp h
  have hpred := List.find?_some hrow
  simp only [Bool.and_eq_true, beq_iff_eq] at hpred
  unfold QDT.get_columns_types_from_ast QDT.get_tables_with_aliases
    QDT.selectSingleCompound QDT.get_tables_with_aliases_from_set_expr
  rw [show QDT.SelectA.fromClause (.mk [.unnamedExpr (.compoundIdentifier [t, c])]
      [.mk (.table [s, tab] (some t)) []]) = [.mk (.table [s, tab] (some t)) []] from rfl]
  rw [process_single_table s tab t info ds]
  have halias : QDT.get_alias_with_clomuns_and_column_type [(s, tab, t)] info =
      (info.filter (fun r => r.schema == s && r.table == tab)).map
        (fun r => (t, r.column, r.ty)) := by
    simp [QDT.get_alias_with_clomuns_and_column_type]
  simp only [halias, QDT.get_expr, QDT.get_columns_types, QDT.SelectA.projection,
    QDT.processProjections, QDT.process_expr]
  have hlen : ¬ (([t, c] : List Str).length > 2) := by simp
  simp only [hlen, if_false]
  have hfind :
      ((info.filter (fun r => r.schema == s && r.table == tab)).map
        (fun r => (t, r.column, r.ty))).find?
          (fun trip => trip.1 == t && trip.2.1 == c) = some (t, row.column, row.ty) := by
    rw [find?_map_lemma, find?_filter_lemma]
    rw [find?_ext (q := fun r => (r.schema == s && r.table == tab) && r.column == c)
      (fun r => by simp) info]
    rw [hrow]
    rfl
  simp only [QDT.find_type]
  rw [hfind]
  simp [hpred.2, hty]
  rfl

theorem c1_type_inference_soundness_witness :
    QDT.get_columns_types_from_ast
        [⟨['p'], ['u', 's', 'e', 'r', 's'], ['i', 'd'], .MYSQL_TYPE_LONGLONG⟩]
        ['d']
        [QDT.selectSingleCompound ['p'] ['u', 's', 'e', 'r', 's'] ['t'] ['i', 'd']] =
      .ok [(['i', 'd'], .MYSQL_TYPE_LONGLONG)] :=
  c1_type_inference_soundness
    [⟨['p'], ['u', 's', 'e', 'r', 's'], ['i', 'd'], .MYSQL_TYPE_LONGLONG⟩]
    ['d'] ['p'] ['u', 's', 'e', 'r', 's'] ['t'] ['i', 'd'] .MYSQL_TYPE_LONGLONG
    (by decide)

/-- `trimRight` keeps the head when it returns anything. -/
theorem trimRight_head (z : Str) :
    trimRight z = [] ∨ (trimRight z).head? = z.head? := by
  induction z with
  | nil => left; rfl
  | cons c rest ih =>
    simp only [trimRight]
    cases h : trimRight rest with
    | nil =>
      by_cases hw : isWs c
      · left; simp [hw]
      · right; simp [hw]
    | cons r rs => right; simp

theorem trimRight_cons (c : Char) (rest : Str) :
    trimRight (c :: rest) =
      match trimRight rest with
      | [] => if isWs c then [] else [c]
      | r => c :: r := rfl

theorem trimRight_idem (s : Str) : trimRight (trimRight s) = trimRight s := by
  induction s with
  | nil => rfl
  | cons c rest ih =>
    cases h : trimRight rest with
    | nil =>
      have h1 : trimRight (c :: rest) = if isWs c then [] else [c] := by
        rw [trimRight_cons, h]
      rw [h1]
      by_cases hw : isWs c <;> simp [hw, trimRight]
    | cons r rs =>
      have hrr : trimRight (r :: rs) = r :: rs := by
        rw [← h]; exact ih
      have h1 : trimRight (c :: rest) = c :: r :: rs := by
        rw [trimRight_cons, h]
      rw [h1, trimRight_cons, hrr]

/-- The head of `trimLeft` is never whitespace. -/
theorem trimLeft_head (s : Str) :
    trimLeft s = [] ∨ ∃ c t, trimLeft s = c :: t ∧ isWs c = false := by
  induction s with
  | nil => left; rfl
  | cons c rest ih =>
    by_cases hw : isWs c
    · simpa [trimLeft, List.dropWhile, hw] using ih
    · right
      exact ⟨c, rest, by simp [trimLeft, List.dropWhile, hw], by simp [hw]⟩

theorem trimLeft_id_of_head (c : Char) (t : Str) (h : isWs c = false) :
    trimLeft (c :: t) = c :: t := by
  simp [trimLeft, List.dropWhile, h]

theorem trimStr_idem (s : Str) : trimStr (trimStr s) = trimStr s := by
  unfold trimStr
  have hL : trimLeft (trimRight (trimLeft s)) = trimRight (trimLeft s) := by
    rcases trimLeft_head s with h | ⟨c, t, h, hw⟩
    · rw [h]; rfl
    · rw [h]
      cases h3 : trimRight (c :: t) with
      | nil => rfl
      | cons d u =>
        rcases trimRight_head (c :: t) with h2 | h2
        · rw [h3] at h2; cases h2
        · rw [h3] at h2
          simp only [List.head?_cons] at h2
          have : d = c := by injection h2
          subst this
          exact trimLeft_id_of_head d u hw
  rw [hL, trimRight_idem]

theorem trimStr_head_not_ws (s : Str) :
    trimStr s = [] ∨ ∃ c t, trimStr s = c :: t ∧ isWs c = false := by
  unfold trimStr
  rcases trimLeft_head s with h | ⟨c, t, h, hw⟩
  · left; rw [h]; rfl
  · rw [h]
    cases h3 : trimRight (c :: t) with
    | nil => left; rfl
    | cons d u =>
      rcases trimRight_head (c :: t) with h2 | h2
      · rw [h3] at h2; cases h2
      · rw [h3] at h2
        simp only [List.head?_cons] at h2
        have : d = c := by injection h2
        subst this
        exact Or.inr ⟨d, u, rfl, hw⟩

/-- The last character of `trimRight` is never whitespace. -/
theorem trimRight_getLast_not_ws (s : Str) :
    ∀ d, (trimRight s).getLast? = some d → isWs d = false := by
  induction s with
  | nil => intro d h; simp [trimRight] at h
  | cons c rest ih =>
    intro d h
    simp only [trimRight] at h
    cases h2 : trimRight rest with
    | nil =>
      rw [h2] at h
      by_cases hw : isWs c
      · simp [hw] at h
      · simp [hw] at h
        rw [← h]
        simpa using hw
    | cons r rs =>
      rw [h2] at h
      rw [show ((c :: r :: rs).getLast? = (r :: rs).getLast?) from rfl] at h
      exact ih d (by rw [h2]; exact h)

theorem trimStr_getLast_not_ws (s : Str) :
    ∀ d, (trimStr s).getLast? = some d → isWs d = false :=
  trimRight_getLast_not_ws (trimLeft s)

/-- Membership in `trimLeft` implies membership. -/
theorem mem_of_mem_trimLeft (c : Char) (s : Str) (h : c ∈ trimLeft s) : c ∈ s := by
  induction s with
  | nil => simpa [trimLeft] using h
  | cons d rest ih =>
    by_cases hw : isWs d
    · simp only [trimLeft, List.dropWhile, hw] at h
      exact List.mem_cons_of_mem d (ih h)
    · simpa [trimLeft, List.dropWhile, hw] using h

theorem mem_of_mem_trimRight (c : Char) (s : Str) (h : c ∈ trimRight s) : c ∈ s := by
  induction s with
  | nil => simpa [trimRight] using h
  | cons d rest ih =>
    simp only [trimRight] at h
    cases h2 : trimRight rest with
    | nil =>
      rw [h2] at h
      by_cases hw : isWs d <;> simp [hw] at h
      simp [h]
    | cons r rs =>
      rw [h2] at h
      rcases List.mem_cons.mp h with h | h
      · simp [h]
      · exact List.mem_cons_of_mem d (ih (by rw [h2]; exact h))

theorem mem_of_mem_trimStr (c : Char) (s : Str) (h : c ∈ trimStr s) : c ∈ s :=
  mem_of_mem_trimLeft c s (mem_of_mem_trimRight c (trimLeft s) h)

/-- A successful `strip_suffix` decomposes its argument. -/
theorem stripSuffixChar_some (c : Char) (s t : Str)
    (h : stripSuffixChar c s = some t) : s = t ++ [c] := by
  induction s generalizing t with
  | nil => simp [stripSuffixChar] at h
  | cons d rest ih =>
    cases rest with
    | nil =>
      simp only [stripSuffixChar] at h
      split at h
      · rename_i hd
        injection h with h
        subst h
        simp only [beq_iff_eq] at hd
        rw [hd]
        rfl
      · cases h
    | cons e rest2 =>
      simp only [stripSuffixChar, Option.map_eq_some'] at h
      obtain ⟨t', ht', rfl⟩ := h
      rw [show ((e :: rest2 : Str) = t' ++ [c]) from ih t' ht']
      rfl

theorem stripSuffixChar_concat (c : Char) (t : Str) :
    stripSuffixChar c (t ++ [c]) = some t := by
  induction t with
  | nil => simp [stripSuffixChar]
  | cons d t' ih =>
    cases t' with
    | nil => simp [stripSuffixChar]
    | cons e t'' =>
      simp only [List.cons_append] at ih ⊢
      simp [stripSuffixChar, ih]

theorem stripSuffixChar_none_of_getLast (c : Char) (s : Str)
    (h : s.getLast? ≠ some c) : stripSuffixChar c s = none := by
  cases hs : stripSuffixChar c s with
  | none => rfl
  | some t =>
    exact absurd (by rw [stripSuffixChar_some c s t hs]; exact List.getLast?_concat t) h

/-- `read_line` on newline-free input consumes everything. -/
theorem read_line_no_nl (a : Str) (h : '\n' ∉ a) : read_line a = (a, []) := by
  induction a with
  | nil => rfl
  | cons c rest ih =>
    have hc : (c == '\n') = false := by
      simp only [beq_eq_false_iff_ne]
      exact fun hh => h (by rw [hh]; exact List.mem_cons_self _ _)
    simp [read_line, hc, ih (fun hm => h (List.mem_cons_of_mem _ hm))]

theorem read_line_append_nl (a b : Str) (h : '\n' ∉ a) :
    read_line (a ++ '\n' :: b) = (a ++ ['\n'], b) := by
  induction a with
  | nil => simp [read_line]
  | cons c rest ih =>
    have hc : (c == '\n') = false := by
      simp only [beq_eq_false_iff_ne]
      exact fun hh => h (by rw [hh]; exact List.mem_cons_self _ _)
    simp [read_line, hc, ih (fun hm => h (List.mem_cons_of_mem _ hm))]

theorem splitInclusiveNl_nil : splitInclusiveNl [] = [] := by
  rw [splitInclusiveNl]

theorem splitInclusiveNl_no_nl (x : Str) (hx : '\n' ∉ x) (hne : x ≠ []) :
    splitInclusiveNl x = [x] := by
  cases x with
  | nil => exact absurd rfl hne
  | cons c rest =>
    rw [splitInclusiveNl]
    simp only [read_line_no_nl (c :: rest) hx]
    rw [splitInclusiveNl]

theorem splitInclusiveNl_append (a b : Str) (ha : '\n' ∉ a) :
    splitInclusiveNl (a ++ '\n' :: b) = (a ++ ['\n']) :: splitInclusiveNl b := by
  have h := read_line_append_nl a b ha
  cases a with
  | nil =>
    rw [List.nil_append, splitInclusiveNl]
    simp only [List.nil_append] at h
    simp [h]
  | cons c a2 =>
    rw [List.cons_append, splitInclusiveNl]
    simp only [List.cons_append] at h
    simp [h]

theorem linesMap_no_nl (x : Str) (hx : '\n' ∉ x) : linesMap x = x := by
  have h1 : stripSuffixChar '\n' x = none :=
    stripSuffixChar_none_of_getLast _ _
      (fun h => hx (List.mem_of_mem_getLast? h))
  simp [linesMap, h1]

theorem linesMap_concat (a : Str) (hcr : stripSuffixChar '\r' a = none) :
    linesMap (a ++ ['\n']) = a := by
  simp [linesMap, stripSuffixChar_concat, hcr]

/-- Every line of `rustLines (joinSep "\n" ls)` is an element of `ls`, when
the elements of `ls` are newline-free and do not end in a carriage
return. -/
theorem mem_rustLines_joinSep (ls : List Str) (hnl : ∀ l ∈ ls, '\n' ∉ l)
    (hcr : ∀ l ∈ ls, stripSuffixChar '\r' l = none) :
    ∀ x ∈ rustLines (joinSep ['\n'] ls), x ∈ ls := by
  induction ls with
  | nil =>
    intro x hx
    simp [joinSep, rustLines, splitInclusiveNl_nil] at hx
  | cons a ls' ih =>
    cases ls' with
    | nil =>
      intro x hx
      simp only [joinSep] at hx
      by_cases ha : a = []
      · subst ha
        simp [rustLines, splitInclusiveNl_nil] at hx
      · rw [rustLines, splitInclusiveNl_no_nl a (hnl a (by simp)) ha] at hx
        simp only [List.map_cons, List.map_nil, List.mem_singleton] at hx
        rw [hx, linesMap_no_nl a (hnl a (by simp))]
        simp
    | cons a2 ls'' =>
      intro x hx
      simp only [joinSep] at hx
      rw [show a ++ ['\n'] ++ joinSep ['\n'] (a2 :: ls'') =
        a ++ '\n' :: joinSep ['\n'] (a2 :: ls'') by simp] at hx
      rw [rustLines, splitInclusiveNl_append a _ (hnl a (by simp))] at hx
      simp only [List.map_cons, List.mem_cons] at hx
      rcases hx with hx | hx
      · rw [hx, linesMap_concat a (hcr a (by simp))]
        simp
      · have hmem := ih (fun l hl => hnl l (by simp [hl]))
          (fun l hl => hcr l (by simp [hl])) x (by rw [rustLines]; exact hx)
        simp [hmem]

/-- The first component of `read_line` has no interior newline. -/
theorem read_line_fst (s : Str) :
    ('\n' ∉ (read_line s).1) ∨
      ∃ a, (read_line s).1 = a ++ ['\n'] ∧ '\n' ∉ a := by
  induction s with
  | nil => left; simp [read_line]
  | cons c rest ih =>
    by_cases hc : c = '\n'
    · subst hc
      right
      exact ⟨[], by simp [read_line], by simp⟩
    · have hcb : (c == '\n') = false := by simpa using hc
      rcases ih with h | ⟨a, ha, hna⟩
      · left
        simp only [read_line, hcb, Bool.false_eq_true, if_false]
        intro hm
        rcases List.mem_cons.mp hm with h1 | h1
        · exact hc h1.symm
        · exact h h1
      · right
        refine ⟨c :: a, ?_, ?_⟩
        · simp only [read_line, hcb, Bool.false_eq_true, if_false]
          rw [ha]
          rfl
        · intro hm
          rcases List.mem_cons.mp hm with h1 | h1
          · exact hc h1.symm
          · exact hna h1

/-- Pieces of `splitInclusiveNl`: newline-free, or newline-free plus one
final newline. -/
theorem splitInclusiveNl_pieces_fuel (n : Nat) : ∀ s : Str, s.length ≤ n →
    ∀ p ∈ splitInclusiveNl s,
      ('\n' ∉ p) ∨ ∃ a, p = a ++ ['\n'] ∧ '\n' ∉ a := by
  induction n with
  | zero =>
    intro s hs p hp
    have : s = [] := by
      cases s with
      | nil => rfl
      | cons c rest => simp at hs
    rw [this, splitInclusiveNl_nil] at hp
    cases hp
  | succ n ih =>
    intro s hs p hp
    cases s with
    | nil => rw [splitInclusiveNl_nil] at hp; cases hp
    | cons c rest =>
      rw [splitInclusiveNl] at hp
      rcases List.mem_cons.mp hp with h | h
      · rw [h]; exact read_line_fst (c :: rest)
      · refine ih (read_line (c :: rest)).2 ?_ p h
        have := read_line_snd_length_lt c rest
        simp only [List.length_cons] at this hs
        omega

theorem rustLines_no_nl (s : Str) : ∀ x ∈ rustLines s, '\n' ∉ x := by
  intro x hx
  rw [rustLines] at hx
  rcases List.mem_map.mp hx with ⟨p, hp, rfl⟩
  rcases splitInclusiveNl_pieces_fuel s.length s le_rfl p hp with h | ⟨a, rfl, hna⟩
  · rw [linesMap_no_nl p h]; exact h
  · have h1 : stripSuffixChar '\n' (a ++ ['\n']) = some a := stripSuffixChar_concat _ _
    simp only [linesMap, h1]
    cases h2 : stripSuffixChar '\r' a with
    | none => exact hna
    | some q =>
      have := stripSuffixChar_some '\r' a q h2
      intro hm
      exact hna (by rw [this]; exact List.mem_append_left _ hm)

namespace Sanitizer

theorem replaceLanguage_nil : replaceLanguage [] = [] := by
  rw [replaceLanguage]

theorem replaceLanguage_cons_pos (c : Char) (rest : Str)
    (h : atLanguageStr.isPrefixOf (c :: rest) = true) :
    replaceLanguage (c :: rest) =
      englishStr ++ replaceLanguage ((c :: rest).drop 10) := by
  rw [replaceLanguage]
  simp [h]
  rfl

theorem replaceLanguage_cons_neg (c : Char) (rest : Str)
    (h : atLanguageStr.isPrefixOf (c :: rest) = false) :
    replaceLanguage (c :: rest) = c :: replaceLanguage rest := by
  rw [replaceLanguage]
  simp [h]

/-- A prefix free of `d` lies within the part before the first `d`. -/
theorem isPrefixOf_append_elem (p : Str) (d : Char) (hd : d ∉ p) :
    ∀ x y : Str, p.isPrefixOf (x ++ d :: y) = true →
      p.isPrefixOf x = true ∧ p.length ≤ x.length := by
  induction p with
  | nil => intro x y _; simp [List.isPrefixOf]
  | cons q p' ih =>
    intro x y h
    cases x with
    | nil =>
      simp only [List.nil_append, List.isPrefixOf, Bool.and_eq_true, beq_iff_eq] at h
      exact absurd (by rw [h.1]; exact List.mem_cons_self _ _) hd
    | cons e x' =>
      simp only [List.cons_append, List.isPrefixOf, Bool.and_eq_true, beq_iff_eq] at h ⊢
      have := ih (fun hm => hd (List.mem_cons_of_mem _ hm)) x' y h.2
      exact ⟨⟨h.1, this.1⟩, by simpa using this.2⟩

theorem isPrefixOf_append_right (p : Str) :
    ∀ x z : Str, p.isPrefixOf x = true → p.isPrefixOf (x ++ z) = true := by
  induction p with
  | nil => intro x z _; simp [List.isPrefixOf]
  | cons q p' ih =>
    intro x z h
    cases x with
    | nil => simp [List.isPrefixOf] at h
    | cons e x' =>
      simp only [List.cons_append, List.isPrefixOf, Bool.and_eq_true] at h ⊢
      exact ⟨h.1, ih x' z h.2⟩

theorem replaceLanguage_append_nl_fuel (n : Nat) : ∀ a b : Str, a.length ≤ n →
    replaceLanguage (a ++ '\n' :: b) =
      replaceLanguage a ++ '\n' :: replaceLanguage b := by
  induction n with
  | zero =>
    intro a b ha
    have : a = [] := by
      cases a with
      | nil => rfl
      | cons c rest => simp at ha
    subst this
    have hp : atLanguageStr.isPrefixOf ('\n' :: b) = false := by
      simp [atLanguageStr, List.isPrefixOf]
    rw [List.nil_append, replaceLanguage_cons_neg _ _ hp, replaceLanguage_nil,
      List.nil_append]
  | succ n ih =>
    intro a b ha
    cases a with
    | nil =>
      have hp : atLanguageStr.isPrefixOf ('\n' :: b) = false := by
        simp [atLanguageStr, List.isPrefixOf]
      rw [List.nil_append, replaceLanguage_cons_neg _ _ hp, replaceLanguage_nil,
        List.nil_append]
    | cons c a' =>
      have hnl : '\n' ∉ atLanguageStr := by decide
      cases hm : atLanguageStr.isPrefixOf ((c :: a') ++ '\n' :: b) with
      | true =>
        obtain ⟨hpre, hlen⟩ := isPrefixOf_append_elem atLanguageStr '\n' hnl (c :: a') b hm
        have hlen10 : 10 ≤ (c :: a').length := by
          simpa [atLanguageStr] using hlen
        rw [List.cons_append] at hm ⊢
        rw [replaceLanguage_cons_pos _ _ hm]
        rw [← List.cons_append]
        rw [List.drop_append_of_le_length hlen10]
        rw [replaceLanguage_cons_pos _ _ hpre]
        have hdrop : ((c :: a').drop 10).length ≤ n := by
          rw [List.length_drop]
          simp only [List.length_cons] at ha hlen10 ⊢
          omega
        rw [ih ((c :: a').drop 10) b hdrop]
        simp
      | false =>
        have hm' : atLanguageStr.isPrefixOf (c :: a') = false := by
          cases hmm : atLanguageStr.isPrefixOf (c :: a') with
          | false => rfl
          | true =>
            have := isPrefixOf_append_right atLanguageStr (c :: a') ('\n' :: b) hmm
            rw [this] at hm
            cases hm
        rw [List.cons_append, replaceLanguage_cons_neg c _ (by rw [← List.cons_append]; exact hm)]
        rw [replaceLanguage_cons_neg c a' hm']
        have ha' : a'.length ≤ n := by
          simp only [List.length_cons] at ha
          omega
        rw [ih a' b ha']
        rfl

theorem replaceLanguage_append_nl (a b : Str) :
    replaceLanguage (a ++ '\n' :: b) =
      replaceLanguage a ++ '\n' :: replaceLanguage b :=
  replaceLanguage_append_nl_fuel a.length a b le_rfl

theorem replaceLanguage_joinSep (ls : List Str) :
    replaceLanguage (joinSep ['\n'] ls) =
      joinSep ['\n'] (ls.map replaceLanguage) := by
  induction ls with
  | nil => simp [joinSep, replaceLanguage_nil]
  | cons a ls' ih =>
    cases ls' with
    | nil => simp [joinSep]
    | cons a2 ls'' =>
      simp only [joinSep, List.map_cons]
      rw [show a ++ ['\n'] ++ joinSep ['\n'] (a2 :: ls'') =
        a ++ '\n' :: joinSep ['\n'] (a2 :: ls'') by simp]
      rw [replaceLanguage_append_nl]
      simp only [List.map_cons] at ih
      rw [ih]
      simp

/-- A nonempty apostrophe-free prefix of a replacement result is a prefix of
the original: the replacement text starts (and new text only starts) with an
apostrophe. -/
theorem isPrefixOf_replaceLanguage (x : Str) : ∀ q : Str, q ≠ [] → '\'' ∉ q →
    q.isPrefixOf (replaceLanguage x) = true → q.isPrefixOf x = true := by
  induction x with
  | nil =>
    intro q hne hq h
    rw [replaceLanguage_nil] at h
    cases q with
    | nil => exact absurd rfl hne
    | cons q0 q' => simp [List.isPrefixOf] at h
  | cons c rest ih =>
    intro q hne hq h
    cases q with
    | nil => exact absurd rfl hne
    | cons q0 q' =>
      cases hm : atLanguageStr.isPrefixOf (c :: rest) with
      | true =>
        rw [replaceLanguage_cons_pos _ _ hm] at h
        simp only [englishStr, List.cons_append, List.isPrefixOf,
          Bool.and_eq_true, beq_iff_eq] at h
        exact absurd (by rw [h.1]; exact List.mem_cons_self _ _) hq
      | false =>
        rw [replaceLanguage_cons_neg _ _ hm] at h
        simp only [List.isPrefixOf, Bool.and_eq_true] at h ⊢
        refine ⟨h.1, ?_⟩
        cases hq' : q' with
        | nil => simp [List.isPrefixOf]
        | cons r rs =>
          rw [← hq']
          refine ih q' (by rw [hq']; simp) (fun hm2 => hq (List.mem_cons_of_mem _ hm2)) ?_
          rw [hq'] at h ⊢
          exact h.2

/-- Skipping one non-`@` character preserves absence of `@@language`. -/
theorem containsSeq_cons_skip (ch : Char) (y : Str) (hch : ('@' == ch) = false) :
    containsSeq (ch :: y) atLanguageStr = containsSeq y atLanguageStr := by
  have hp : atLanguageStr.isPrefixOf (ch :: y) = false := by
    simp [atLanguageStr, List.isPrefixOf, hch]
  conv_lhs => rw [containsSeq]
  simp [hp]

/-- Prepending the replacement text cannot create `@@language`. -/
theorem contains_english_append (x : Str)
    (h : containsSeq x atLanguageStr = false) :
    containsSeq (englishStr ++ x) atLanguageStr = false := by
  have sQ := fun y => containsSeq_cons_skip '\'' y (by decide)
  have sE := fun y => containsSeq_cons_skip 'e' y (by decide)
  have sN := fun y => containsSeq_cons_skip 'n' y (by decide)
  have sG := fun y => containsSeq_cons_skip 'g' y (by decide)
  have sL := fun y => containsSeq_cons_skip 'l' y (by decide)
  have sI := fun y => containsSeq_cons_skip 'i' y (by decide)
  have sS := fun y => containsSeq_cons_skip 's' y (by decide)
  have sH := fun y => containsSeq_cons_skip 'h' y (by decide)
  show containsSeq ('\'' :: 'e' :: 'n' :: 'g' :: 'l' :: 'i' :: 's' :: 'h' :: '\'' :: x)
    atLanguageStr = false
  rw [sQ, sE, sN, sG, sL, sI, sS, sH, sQ]
  exact h

/-- The output of the replacement never contains `@@language`. -/
theorem replaceLanguage_not_contains_fuel (n : Nat) : ∀ s : Str, s.length ≤ n →
    containsSeq (replaceLanguage s) atLanguageStr = false := by
  induction n with
  | zero =>
    intro s hs
    have : s = [] := by
      cases s with
      | nil => rfl
      | cons c rest => simp at hs
    rw [this, replaceLanguage_nil]
    decide
  | succ n ih =>
    intro s hs
    cases s with
    | nil => rw [replaceLanguage_nil]; decide
    | cons c rest =>
      cases hm : atLanguageStr.isPrefixOf (c :: rest) with
      | true =>
        rw [replaceLanguage_cons_pos _ _ hm]
        refine contains_english_append _ (ih _ ?_)
        rw [List.length_drop]
        simp only [List.length_cons] at hs ⊢
        omega
      | false =>
        rw [replaceLanguage_cons_neg _ _ hm]
        conv_lhs => rw [containsSeq]
        have h2 : containsSeq (replaceLanguage rest) atLanguageStr = false := by
          refine ih rest ?_
          simp only [List.length_cons] at hs
          omega
        rw [h2]
        have h1 : atLanguageStr.isPrefixOf (c :: replaceLanguage rest) = false := by
          cases hp : atLanguageStr.isPrefixOf (c :: replaceLanguage rest) with
          | false => rfl
          | true =>
            exfalso
            have : atLanguageStr =
              '@' :: ['@', 'l', 'a', 'n', 'g', 'u', 'a', 'g', 'e'] := rfl
            rw [this] at hp
            simp only [List.isPrefixOf, Bool.and_eq_true, beq_iff_eq] at hp
            have htail := isPrefixOf_replaceLanguage rest
              ['@', 'l', 'a', 'n', 'g', 'u', 'a', 'g', 'e'] (by simp) (by decide) hp.2
            have : atLanguageStr.isPrefixOf (c :: rest) = true := by
              rw [this]
              simp only [List.isPrefixOf, Bool.and_eq_true, beq_iff_eq]
              exact ⟨hp.1, htail⟩
            rw [this] at hm
            cases hm
        rw [h1]
        rfl

theorem replaceLanguage_not_contains (s : Str) :
    containsSeq (replaceLanguage s) atLanguageStr = false :=
  replaceLanguage_not_contains_fuel s.length s le_rfl

/-- When the pattern does not occur, the replacement is the identity. -/
theorem replaceLanguage_id_of_not_contains (s : Str)
    (h : containsSeq s atLanguageStr = false) : replaceLanguage s = s := by
  induction s with
  | nil => exact replaceLanguage_nil
  | cons c rest ih =>
    conv_lhs at h => rw [containsSeq]
    simp only [Bool.or_eq_false_iff] at h
    rw [replaceLanguage_cons_neg _ _ h.1, ih h.2]

theorem replaceLanguage_eq_nil_iff (x : Str) : replaceLanguage x = [] ↔ x = [] := by
  constructor
  · intro h
    cases x with
    | nil => rfl
    | cons c rest =>
      cases hm : atLanguageStr.isPrefixOf (c :: rest) with
      | true => rw [replaceLanguage_cons_pos _ _ hm] at h; simp [englishStr] at h
      | false => rw [replaceLanguage_cons_neg _ _ hm] at h; simp at h
  · intro h; rw [h]; exact replaceLanguage_nil

/-- The head of a replacement result: empty, an apostrophe, or the original
head. -/
theorem replaceLanguage_head (x : Str) :
    replaceLanguage x = [] ∨ (∃ t, replaceLanguage x = '\'' :: t) ∨
      (∃ c t t', x = c :: t ∧ replaceLanguage x = c :: t') := by
  cases x with
  | nil => left; exact replaceLanguage_nil
  | cons c rest =>
    cases hm : atLanguageStr.isPrefixOf (c :: rest) with
    | true =>
      right; left
      rw [replaceLanguage_cons_pos _ _ hm]
      exact ⟨'e' :: 'n' :: 'g' :: 'l' :: 'i' :: 's' :: 'h' :: '\'' ::
        replaceLanguage ((c :: rest).drop 10), rfl⟩
    | false =>
      right; right
      exact ⟨c, rest, replaceLanguage rest, rfl, replaceLanguage_cons_neg _ _ hm⟩

/-- A suffix's last element is the list's last element. -/
theorem getLast?_of_suffix {s l : Str} (h : s <:+ l) {d : Char}
    (hd : s.getLast? = some d) : l.getLast? = some d := by
  obtain ⟨t, rfl⟩ := h
  have hs : s ≠ [] := by intro hh; rw [hh] at hd; cases hd
  rw [List.getLast?_append_of_ne_nil t hs]
  exact hd

/-- The last character of a replacement result is never whitespace when the
input's is not. -/
theorem replaceLanguage_getLast_fuel (n : Nat) : ∀ l : Str, l.length ≤ n →
    (∀ d, l.getLast? = some d → isWs d = false) →
    ∀ d', (replaceLanguage l).getLast? = some d' → isWs d' = false := by
  induction n with
  | zero =>
    intro l hl _ d' hd'
    have : l = [] := by
      cases l with
      | nil => rfl
      | cons c rest => simp at hl
    rw [this, replaceLanguage_nil] at hd'
    cases hd'
  | succ n ih =>
    intro l hl hlast d' hd'
    cases l with
    | nil => rw [replaceLanguage_nil] at hd'; cases hd'
    | cons c rest =>
      cases hm : atLanguageStr.isPrefixOf (c :: rest) with
      | true =>
        rw [replaceLanguage_cons_pos _ _ hm] at hd'
        cases hR : replaceLanguage ((c :: rest).drop 10) with
        | nil =>
          rw [hR, List.append_nil] at hd'
          have : englishStr.getLast? = some '\'' := by decide
          rw [this] at hd'
          injection hd' with hd'
          rw [← hd']
          decide
        | cons r rs =>
          rw [hR, List.getLast?_append_of_ne_nil _ (by simp)] at hd'
          rw [← hR] at hd'
          have hdropne : (c :: rest).drop 10 ≠ [] := by
            intro hh
            rw [hh, replaceLanguage_nil] at hR
            cases hR
          refine ih ((c :: rest).drop 10) ?_ ?_ d' hd'
          · rw [List.length_drop]
            simp only [List.length_cons] at hl ⊢
            omega
          · intro d hd
            exact hlast d (getLast?_of_suffix (List.drop_suffix 10 (c :: rest)) hd)
      | false =>
        rw [replaceLanguage_cons_neg _ _ hm] at hd'
        cases hR : replaceLanguage rest with
        | nil =>
          rw [hR] at hd'
          have hrest : rest = [] := (replaceLanguage_eq_nil_iff rest).mp hR
          subst hrest
          injection hd' with hd'
          refine hlast d' ?_
          rw [← hd']
          rfl
        | cons r rs =>
          rw [hR] at hd'
          rw [show ((c :: r :: rs).getLast? = (r :: rs).getLast?) from rfl] at hd'
          rw [← hR] at hd'
          have hrestne : rest ≠ [] := by
            intro hh
            rw [hh, replaceLanguage_nil] at hR
            cases hR
          refine ih rest ?_ ?_ d' hd'
          · simp only [List.length_cons] at hl
            omega
          · intro d hd
            refine hlast d ?_
            rw [show ((c :: rest).getLast? = rest.getLast?) from
              List.getLast?_append_of_ne_nil [c] hrestne]
            exact hd

theorem replaceLanguage_getLast (l : Str)
    (hlast : ∀ d, l.getLast? = some d → isWs d = false) :
    ∀ d', (replaceLanguage l).getLast? = some d' → isWs d' = false :=
  replaceLanguage_getLast_fuel l.length l le_rfl hlast

/-- Characters absent from both input and replacement text stay absent. -/
theorem not_mem_replaceLanguage_fuel (n : Nat) : ∀ s : Str, s.length ≤ n →
    ∀ ch : Char, ch ∉ englishStr → ch ∉ s → ch ∉ replaceLanguage s := by
  induction n with
  | zero =>
    intro s hs ch _ _
    have : s = [] := by
      cases s with
      | nil => rfl
      | cons c rest => simp at hs
    rw [this, replaceLanguage_nil]
    simp
  | succ n ih =>
    intro s hs ch heng hsm
    cases s with
    | nil => rw [replaceLanguage_nil]; simp
    | cons c rest =>
      cases hm : atLanguageStr.isPrefixOf (c :: rest) with
      | true =>
        rw [replaceLanguage_cons_pos _ _ hm]
        intro hmem
        rcases List.mem_append.mp hmem with h | h
        · exact heng h
        · refine ih ((c :: rest).drop 10) ?_ ch heng
            (fun hm2 => hsm (List.mem_of_mem_drop hm2)) h
          rw [List.length_drop]
          simp only [List.length_cons] at hs ⊢
          omega
      | false =>
        rw [replaceLanguage_cons_neg _ _ hm]
        intro hmem
        rcases List.mem_cons.mp hmem with h | h
        · exact hsm (by rw [h]; exact List.mem_cons_self _ _)
        · refine ih rest ?_ ch heng (fun hm2 => hsm (List.mem_cons_of_mem _ hm2)) h
          simp only [List.length_cons] at hs
          omega

theorem not_mem_replaceLanguage (s : Str) (ch : Char) (heng : ch ∉ englishStr)
    (hsm : ch ∉ s) : ch ∉ replaceLanguage s :=
  not_mem_replaceLanguage_fuel s.length s le_rfl ch heng hsm

end Sanitizer

/-- Refined head characterization: in the copy case the tail is the
replacement of the original tail. -/
theorem replaceLanguage_head_cases (x : Str) :
    Sanitizer.replaceLanguage x = [] ∨
      (∃ t, Sanitizer.replaceLanguage x = '\'' :: t) ∨
      (∃ c t, x = c :: t ∧
        Sanitizer.replaceLanguage x = c :: Sanitizer.replaceLanguage t) := by
  cases x with
  | nil => left; exact Sanitizer.replaceLanguage_nil
  | cons c rest =>
    cases hm : Sanitizer.atLanguageStr.isPrefixOf (c :: rest) with
    | true =>
      right; left
      rw [Sanitizer.replaceLanguage_cons_pos _ _ hm]
      exact ⟨'e' :: 'n' :: 'g' :: 'l' :: 'i' :: 's' :: 'h' :: '\'' ::
        Sanitizer.replaceLanguage ((c :: rest).drop 10), rfl⟩
    | false =>
      right; right
      exact ⟨c, rest, rfl, Sanitizer.replaceLanguage_cons_neg _ _ hm⟩

theorem trimRight_cons_nil (c : Char) (rest : Str) (h : trimRight rest = []) :
    trimRight (c :: rest) = if isWs c then [] else [c] := by
  rw [trimRight_cons, h]

theorem trimRight_cons_cons (c r : Char) (rs rest : Str)
    (h : trimRight rest = r :: rs) : trimRight (c :: rest) = c :: r :: rs := by
  rw [trimRight_cons, h]

/-- The head of a nonempty `trimRight` result. -/
theorem trimRight_head_eq (z : Str) (d : Char) (u : Str)
    (h : trimRight z = d :: u) : z.head? = some d := by
  rcases trimRight_head z with h2 | h2
  · rw [h2] at h; cases h
  · rw [h] at h2
    exact h2.symm

/-- A trimmed line that does not start with `--` or `#` still does not after
the `@@language` replacement and re-trimming. -/
theorem kept_line_safe (l : Str) (hl : trimStr l = l)
    (hd : Sanitizer.dashDash.isPrefixOf l = false)
    (hh : Sanitizer.hashStr.isPrefixOf l = false) :
    Sanitizer.dashDash.isPrefixOf (trimStr (Sanitizer.replaceLanguage l)) = false ∧
    Sanitizer.hashStr.isPrefixOf (trimStr (Sanitizer.replaceLanguage l)) = false := by
  rcases replaceLanguage_head_cases l with hout | ⟨t, hout⟩ | ⟨c, t, hlt, hout⟩
  · rw [hout]
    exact ⟨rfl, rfl⟩
  · -- the output starts with an apostrophe, which is not '-' or '#'
    rw [hout, show trimStr ('\'' :: t) = trimRight ('\'' :: t) from by
      rw [trimStr, trimLeft_id_of_head _ _ (by decide)]]
    constructor
    all_goals {
      cases htr : trimRight ('\'' :: t) with
      | nil => rfl
      | cons d u =>
        have h2 := trimRight_head_eq _ _ _ htr
        simp only [List.head?_cons] at h2
        have hd' : d = '\'' := (Option.some.inj h2).symm
        subst hd'
        simp [Sanitizer.dashDash, Sanitizer.hashStr, List.isPrefixOf]
    }
  · -- the output starts with the kept head character c
    have hcw : isWs c = false := by
      rcases trimStr_head_not_ws l with h2 | ⟨c', t', h2, hw⟩
      · rw [hl, hlt] at h2; cases h2
      · rw [hl, hlt] at h2
        have : c' = c := (List.cons.inj h2.symm).1
        rw [← this]; exact hw
    rw [hout, show trimStr (c :: Sanitizer.replaceLanguage t) =
      trimRight (c :: Sanitizer.replaceLanguage t) from by
      rw [trimStr, trimLeft_id_of_head _ _ hcw]]
    constructor
    · -- no "--" prefix
      cases hp : Sanitizer.dashDash.isPrefixOf
          (trimRight (c :: Sanitizer.replaceLanguage t)) with
      | false => rfl
      | true =>
        exfalso
        obtain ⟨u1, hu1, hrest1⟩ := isPrefixOf_cons_ex
          (show (('-' :: ['-'] : Str)).isPrefixOf _ = true from hp)
        obtain ⟨u2, hu2, -⟩ := isPrefixOf_cons_ex hrest1
        have hc : c = '-' := by
          have h2 := trimRight_head_eq _ _ _ hu1
          simp only [List.head?_cons] at h2
          exact Option.some.inj h2
        subst hc
        have htr2 : trimRight ('-' :: Sanitizer.replaceLanguage t) =
            '-' :: '-' :: u2 := by rw [hu1, hu2]
        cases htr : trimRight (Sanitizer.replaceLanguage t) with
        | nil =>
          rw [trimRight_cons_nil _ _ htr] at htr2
          simp [show isWs '-' = false from by decide] at htr2
        | cons r rs =>
          rw [trimRight_cons_cons _ _ _ _ htr] at htr2
          have hr : r = '-' := (List.cons.inj (List.cons.inj htr2).2).1
          subst hr
          have hRhead := trimRight_head_eq _ _ _ htr
          rcases replaceLanguage_head_cases t with h3 | ⟨t2, h3⟩ | ⟨c2, t2, ht2, h3⟩
          · rw [h3] at hRhead; cases hRhead
          · rw [h3] at hRhead
            simp only [List.head?_cons] at hRhead
            cases hRhead
          · rw [h3] at hRhead
            simp only [List.head?_cons] at hRhead
            have : c2 = '-' := Option.some.inj hRhead
            subst this
            rw [hlt, ht2] at hd
            simp [Sanitizer.dashDash, List.isPrefixOf] at hd
    · -- no "#" prefix
      cases hp : Sanitizer.hashStr.isPrefixOf
          (trimRight (c :: Sanitizer.replaceLanguage t)) with
      | false => rfl
      | true =>
        exfalso
        obtain ⟨u1, hu1, -⟩ := isPrefixOf_cons_ex
          (show (('#' :: [] : Str)).isPrefixOf _ = true from hp)
        have hc : c = '#' := by
          have h2 := trimRight_head_eq _ _ _ hu1
          simp only [List.head?_cons] at h2
          exact Option.some.inj h2
        subst hc
        rw [hlt] at hh
        simp [Sanitizer.hashStr, List.isPrefixOf] at hh

/-- Every line of a sanitized string has a trimmed form that starts with
neither `--` nor `#`. -/
theorem sanitizeLines_lines_safe (s : Str) :
    ∀ x ∈ rustLines (Sanitizer.sanitizeLines s),
      Sanitizer.dashDash.isPrefixOf (trimStr x) = false ∧
      Sanitizer.hashStr.isPrefixOf (trimStr x) = false := by
  intro x hx
  unfold Sanitizer.sanitizeLines at hx
  rw [Sanitizer.replaceLanguage_joinSep] at hx
  have hkept : ∀ l ∈ (((rustLines (trimStr s)).map trimStr).filter
      (fun line => !(Sanitizer.dashDash.isPrefixOf (trimStr line)))).filter
      (fun line => !(Sanitizer.hashStr.isPrefixOf (trimStr line))),
      trimStr l = l ∧ '\n' ∉ l ∧
        Sanitizer.dashDash.isPrefixOf l = false ∧
        Sanitizer.hashStr.isPrefixOf l = false := by
    intro l hlm
    obtain ⟨hlm1, hcond2⟩ := List.mem_filter.mp hlm
    obtain ⟨hlm2, hcond1⟩ := List.mem_filter.mp hlm1
    obtain ⟨raw, hraw, rfl⟩ := List.mem_map.mp hlm2
    have hidem := trimStr_idem raw
    refine ⟨hidem, ?_, ?_, ?_⟩
    · exact fun hm =>
        rustLines_no_nl (trimStr s) raw hraw (mem_of_mem_trimStr _ _ hm)
    · rw [← hidem]
      simpa using hcond1
    · rw [← hidem]
      simpa using hcond2
  have hx2 := mem_rustLines_joinSep _
    (by
      intro y hy
      obtain ⟨l, hl, rfl⟩ := List.mem_map.mp hy
      obtain ⟨-, hnl, -, -⟩ := hkept l hl
      exact Sanitizer.not_mem_replaceLanguage l '\n' (by decide) hnl)
    (by
      intro y hy
      obtain ⟨l, hl, rfl⟩ := List.mem_map.mp hy
      obtain ⟨hidem, -, -, -⟩ := hkept l hl
      refine stripSuffixChar_none_of_getLast _ _ (fun hlast => ?_)
      have := Sanitizer.replaceLanguage_getLast l
        (fun d hdl => trimStr_getLast_not_ws l d (by rw [hidem]; exact hdl))
        '\r' hlast
      exact absurd this (by decide))
    x hx
  obtain ⟨l, hl, rfl⟩ := List.mem_map.mp hx2
  obtain ⟨hidem, -, hd, hh⟩ := hkept l hl
  exact kept_line_safe l hidem hd hh

theorem tupleWindows_map_snd (x : Char) (y : Str) :
    (Sanitizer.tupleWindows (x :: y)).map (fun p => p.2) = y := by
  induction y generalizing x with
  | nil => rfl
  | cons z w ih => simp [Sanitizer.tupleWindows, ih]

/-- Stepping over a non-matching window. -/
theorem remove_comments_step (c d : Char) (rest : Str)
    (h : (c == '*' && d == '/') = false) :
    Sanitizer.remove_comments_from_the_start (c :: d :: rest) =
      Sanitizer.remove_comments_from_the_start (d :: rest) := by
  unfold Sanitizer.remove_comments_from_the_start
  rw [show Sanitizer.tupleWindows (c :: d :: rest) =
    (c, d) :: Sanitizer.tupleWindows (d :: rest) from by
      cases rest <;> rfl]
  rw [List.dropWhile_cons]
  simp [h]

/-- The first `*/` window closes the comment: everything after it is kept. -/
theorem remove_comments_close (b : Str) :
    Sanitizer.remove_comments_from_the_start ('*' :: '/' :: b) = b := by
  unfold Sanitizer.remove_comments_from_the_start
  rw [show Sanitizer.tupleWindows ('*' :: '/' :: b) =
    ('*', '/') :: Sanitizer.tupleWindows ('/' :: b) from by
      cases b <;> rfl]
  rw [List.dropWhile_cons]
  simp [tupleWindows_map_snd]

/-- `remove_comments_from_the_start` removes exactly through the FIRST
`*/`. -/
theorem remove_comments_append (a b : Str)
    (ha : containsSeq a ['*', '/'] = false) :
    Sanitizer.remove_comments_from_the_start (a ++ '*' :: '/' :: b) = b := by
  induction a with
  | nil => exact remove_comments_close b
  | cons c a' ih =>
    conv_lhs at ha => rw [containsSeq]
    simp only [Bool.or_eq_false_iff] at ha
    cases a' with
    | nil =>
      rw [show ([c] : Str) ++ '*' :: '/' :: b = c :: '*' :: '/' :: b from rfl]
      rw [remove_comments_step c '*' ('/' :: b) (by simp)]
      exact remove_comments_close b
    | cons d a'' =>
      have hcd : (c == '*' && d == '/') = false := by
        cases hc : c == '*' with
        | false => rfl
        | true =>
          cases hdd : d == '/' with
          | false => simp
          | true =>
            exfalso
            have h1 := ha.1
            simp only [beq_iff_eq] at hc hdd
            subst hc; subst hdd
            simp [List.isPrefixOf] at h1
      rw [show ((c :: d :: a'' : Str)) ++ '*' :: '/' :: b =
        c :: d :: (a'' ++ '*' :: '/' :: b) from rfl]
      rw [remove_comments_step c d _ hcd]
      exact ih ha.2

/-- A single already-clean line passes through `sanitizeLines` unchanged. -/
theorem sanitizeLines_clean (s : Str) (hnl : '\n' ∉ s) (hts : trimStr s = s)
    (hne : s ≠ []) (hd : Sanitizer.dashDash.isPrefixOf s = false)
    (hh : Sanitizer.hashStr.isPrefixOf s = false)
    (hat : containsSeq s Sanitizer.atLanguageStr = false) :
    Sanitizer.sanitizeLines s = s := by
  unfold Sanitizer.sanitizeLines
  rw [hts, rustLines, splitInclusiveNl_no_nl s hnl hne]
  rw [show List.map linesMap [s] = [s] from by
    rw [List.map_cons, List.map_nil, linesMap_no_nl s hnl]]
  rw [show List.map trimStr [s] = [s] from by
    rw [List.map_cons, List.map_nil, hts]]
  rw [show List.filter
      (fun line => !(Sanitizer.dashDash.isPrefixOf (trimStr line))) [s] = [s] from by
    simp [List.filter, hts, hd]]
  rw [show List.filter
      (fun line => !(Sanitizer.hashStr.isPrefixOf (trimStr line))) [s] = [s] from by
    simp [List.filter, hts, hh]]
  rw [show joinSep ['\n'] [s] = s from rfl]
  exact Sanitizer.replaceLanguage_id_of_not_contains s hat

/-- Claim C7 counterexample: the sanitizer removes only the FIRST leading
block comment; for the input `/*a*//*b*/` the string passed to the inner
stage is `/*b*/`, which still begins with a (closed) block comment. -/
theorem c7_sanitizer_counterexample :
    Sanitizer.hasLeadingBlockComment
      (Sanitizer.query ['/', '*', 'a', '*', '/', '/', '*', 'b', '*', '/']) = true := by
  have h1 : Sanitizer.query ['/', '*', 'a', '*', '/', '/', '*', 'b', '*', '/'] =
      Sanitizer.sanitizeLines ['/', '*', 'b', '*', '/'] := by
    show Sanitizer.sanitizeLines _ = _
    rw [show trimStr ['/', '*', 'a', '*', '/', '/', '*', 'b', '*', '/'] =
      ['/', '*', 'a', '*', '/', '/', '*', 'b', '*', '/'] from by decide]
    rw [if_pos (by decide)]
    rw [show (['/', '*', 'a', '*', '/', '/', '*', 'b', '*', '/'] : Str) =
      ['/', '*', 'a'] ++ '*' :: '/' :: ['/', '*', 'b', '*', '/'] from rfl]
    rw [remove_comments_append _ _ (by decide)]
  rw [h1, sanitizeLines_clean _ (by decide) (by decide) (by decide) (by decide)
    (by decide) (by decide)]
  decide

/-- Claim C7 (amended): the string the sanitizer passes to its inner stage
contains no line whose trimmed form starts with `--` or `#` and no
occurrence of `@@language`; and when the trimmed input starts with `/`, the
text up to and including the FIRST `*/` is removed — a second block comment
may survive at the front of the output, so only the first leading comment
is guaranteed gone. -/
theorem c7_sanitizer_amended (q a b : Str) :
    (∀ x ∈ rustLines (Sanitizer.query q),
      Sanitizer.dashDash.isPrefixOf (trimStr x) = false ∧
      Sanitizer.hashStr.isPrefixOf (trimStr x) = false) ∧
    containsSeq (Sanitizer.query q) Sanitizer.atLanguageStr = false ∧
    ((trimStr q).head? = some '/' → trimStr q = a ++ '*' :: '/' :: b →
      containsSeq a ['*', '/'] = false →
      Sanitizer.query q = Sanitizer.sanitizeLines b) := by
  refine ⟨sanitizeLines_lines_safe _, Sanitizer.replaceLanguage_not_contains _, ?_⟩
  intro hh hsplit hns
  show Sanitizer.sanitizeLines _ = _
  rw [if_pos (by rw [hh]; decide)]
  rw [hsplit, remove_comments_append a b hns]

theorem c7_sanitizer_amended_witness :
    Sanitizer.query ['/', '*', 'a', '*', '/', ' ', 's', 'e', 'l', '1'] =
      Sanitizer.sanitizeLines [' ', 's', 'e', 'l', '1'] :=
  (c7_sanitizer_amended ['/', '*', 'a', '*', '/', ' ', 's', 'e', 'l', '1']
    ['/', '*', 'a'] [' ', 's', 'e', 'l', '1']).2.2 (by decide) (by decide) (by decide)
